import Mathlib

/-!
# stty: shallow embedding of `stty.c`

The program is one C file.  It reads the terminal attributes, renders them
(`stty_print`, `printkey`, `cc_to_str`, `speed_to_baud`) or walks its operands
against the `settings` table (`main`).

Conventions of the embedding

* C strings are Lean strings holding the bytes before the terminating NUL;
  `strcmp(a, b) == 0` is equality of the two strings.
* `tcflag_t`, `speed_t`, `cc_t` and `size_t` values are natural numbers; the
  program only applies `&`, `==` and small additions to them.
* The constants of `<termios.h>` and `<unistd.h>` are not part of the
  repository: they are the fields of `Consts`, a parameter of every definition
  that mentions one of them.
* Text written with `printf` and `putchar` is accumulated in a string.
* Library functions are modelled by what their library does: `isprint` in the
  C locale, `getopt` as in the GNU C library, whose scanning mode (it steps
  over non-options by default, and stops at the first one when
  `POSIXLY_CORRECT` is set) is the argument `ordering` of `main`.  The result
  of `tcgetattr` is the argument `tty` of `stty_print` and `main`; the calls a
  run makes to the terminal interface are listed in `Outcome.calls`.
-/

namespace Stty

/-! ## Platform constants -/

/-- The constants the program takes from the system headers.  Their values are
fixed by the platform, not by the repository. -/
structure Consts where
  PARENB : Nat
  PARODD : Nat
  HUPCL : Nat
  CSTOPB : Nat
  CREAD : Nat
  CLOCAL : Nat
  IGNBRK : Nat
  BRKINT : Nat
  IGNPAR : Nat
  PARMRK : Nat
  INPCK : Nat
  INLCR : Nat
  IGNCR : Nat
  ICRNL : Nat
  IXON : Nat
  IXANY : Nat
  IXOFF : Nat
  OPOST : Nat
  ONLCR : Nat
  OCRNL : Nat
  ONOCR : Nat
  ONLRET : Nat
  OFILL : Nat
  OFDEL : Nat
  ISIG : Nat
  ICANON : Nat
  IEXTEN : Nat
  ECHO : Nat
  ECHOE : Nat
  ECHOK : Nat
  ECHONL : Nat
  NOFLSH : Nat
  TOSTOP : Nat
  CSIZE : Nat
  CS5 : Nat
  CS6 : Nat
  CS7 : Nat
  CS8 : Nat
  CRDLY : Nat
  CR0 : Nat
  CR1 : Nat
  CR2 : Nat
  CR3 : Nat
  NLDLY : Nat
  NL0 : Nat
  NL1 : Nat
  TABDLY : Nat
  TAB0 : Nat
  TAB1 : Nat
  TAB2 : Nat
  TAB3 : Nat
  BSDLY : Nat
  BS0 : Nat
  BS1 : Nat
  FFDLY : Nat
  FF0 : Nat
  FF1 : Nat
  VTDLY : Nat
  VT0 : Nat
  VT1 : Nat
  VEOF : Nat
  VEOL : Nat
  VERASE : Nat
  VINTR : Nat
  VKILL : Nat
  VQUIT : Nat
  VSUSP : Nat
  VSTART : Nat
  VSTOP : Nat
  VMIN : Nat
  VTIME : Nat
  B0 : Nat
  B50 : Nat
  B75 : Nat
  B110 : Nat
  B134 : Nat
  B150 : Nat
  B200 : Nat
  B300 : Nat
  B600 : Nat
  B1200 : Nat
  B1800 : Nat
  B2400 : Nat
  B4800 : Nat
  B9600 : Nat
  B19200 : Nat
  B38400 : Nat
  POSIX_VDISABLE : Nat

/-- The values of the constants in the Linux headers
(`asm-generic/termbits.h`), used as the concrete platform of the examples. -/
def linux : Consts where
  PARENB := 0x100
  PARODD := 0x200
  HUPCL := 0x400
  CSTOPB := 0x40
  CREAD := 0x80
  CLOCAL := 0x800
  IGNBRK := 0x1
  BRKINT := 0x2
  IGNPAR := 0x4
  PARMRK := 0x8
  INPCK := 0x10
  INLCR := 0x40
  IGNCR := 0x80
  ICRNL := 0x100
  IXON := 0x400
  IXANY := 0x800
  IXOFF := 0x1000
  OPOST := 0x1
  ONLCR := 0x4
  OCRNL := 0x8
  ONOCR := 0x10
  ONLRET := 0x20
  OFILL := 0x40
  OFDEL := 0x80
  ISIG := 0x1
  ICANON := 0x2
  IEXTEN := 0x8000
  ECHO := 0x8
  ECHOE := 0x10
  ECHOK := 0x20
  ECHONL := 0x40
  NOFLSH := 0x80
  TOSTOP := 0x100
  CSIZE := 0x30
  CS5 := 0x0
  CS6 := 0x10
  CS7 := 0x20
  CS8 := 0x30
  CRDLY := 0x600
  CR0 := 0x0
  CR1 := 0x200
  CR2 := 0x400
  CR3 := 0x600
  NLDLY := 0x100
  NL0 := 0x0
  NL1 := 0x100
  TABDLY := 0x1800
  TAB0 := 0x0
  TAB1 := 0x800
  TAB2 := 0x1000
  TAB3 := 0x1800
  BSDLY := 0x2000
  BS0 := 0x0
  BS1 := 0x2000
  FFDLY := 0x8000
  FF0 := 0x0
  FF1 := 0x8000
  VTDLY := 0x4000
  VT0 := 0x0
  VT1 := 0x4000
  VEOF := 4
  VEOL := 11
  VERASE := 2
  VINTR := 0
  VKILL := 3
  VQUIT := 1
  VSUSP := 10
  VSTART := 8
  VSTOP := 9
  VMIN := 6
  VTIME := 5
  B0 := 0
  B50 := 1
  B75 := 2
  B110 := 3
  B134 := 4
  B150 := 5
  B200 := 6
  B300 := 7
  B600 := 8
  B1200 := 9
  B1800 := 10
  B2400 := 11
  B4800 := 12
  B9600 := 13
  B19200 := 14
  B38400 := 15
  POSIX_VDISABLE := 0

/-! ## Data model -/

/-- The constant `DELETE` of the program. -/
def DELETE : Nat := 127

/-- One row of the `speeds` table; `code` is the member the source calls
`macro`, the `speed_t` code, and `value` the baud rate. -/
structure Speed where
  code : Nat
  value : Nat
deriving DecidableEq, Repr

/-- The table `speeds`. -/
def speeds (K : Consts) : List Speed :=
  [ ⟨K.B0, 0⟩, ⟨K.B50, 50⟩, ⟨K.B75, 75⟩,
    ⟨K.B110, 110⟩, ⟨K.B134, 134⟩, ⟨K.B150, 150⟩,
    ⟨K.B200, 200⟩, ⟨K.B300, 300⟩, ⟨K.B600, 600⟩,
    ⟨K.B1200, 1200⟩, ⟨K.B1800, 1800⟩, ⟨K.B2400, 2400⟩,
    ⟨K.B4800, 4800⟩, ⟨K.B9600, 9600⟩, ⟨K.B19200, 19200⟩,
    ⟨K.B38400, 38400⟩ ]

/-- The type `enum FLAG`: which flag word of the record a row refers to. -/
inductive FLAG where
  | INPUT
  | OUTPUT
  | CONTROL
  | LOCAL
deriving DecidableEq, Repr

/-- The type `enum DISPOSITION`. -/
inductive DISPOSITION where
  | IGNORE
  | SET
  | CLEAR
deriving DecidableEq, Repr

/-- One row of the `settings` table. -/
structure Setting where
  string : String
  flag : FLAG
  mask : Nat
  disposition : DISPOSITION
deriving DecidableEq, Repr

open FLAG DISPOSITION in
/-- The table `settings` as initialised: every disposition is `IGNORE`. -/
def settings (K : Consts) : List Setting :=
  [ ⟨"parenb", CONTROL, K.PARENB, IGNORE⟩,
    ⟨"parodd", CONTROL, K.PARODD, IGNORE⟩,
    ⟨"hupcl", CONTROL, K.HUPCL, IGNORE⟩,
    ⟨"cstopb", CONTROL, K.CSTOPB, IGNORE⟩,
    ⟨"cread", CONTROL, K.CREAD, IGNORE⟩,
    ⟨"clocal", CONTROL, K.CLOCAL, IGNORE⟩,
    ⟨"ignbrk", INPUT, K.IGNBRK, IGNORE⟩,
    ⟨"brkint", INPUT, K.BRKINT, IGNORE⟩,
    ⟨"ignpar", INPUT, K.IGNPAR, IGNORE⟩,
    ⟨"parmrk", INPUT, K.PARMRK, IGNORE⟩,
    ⟨"inpck", INPUT, K.INPCK, IGNORE⟩,
    ⟨"inlcr", INPUT, K.INLCR, IGNORE⟩,
    ⟨"igncr", INPUT, K.IGNCR, IGNORE⟩,
    ⟨"icrnl", INPUT, K.ICRNL, IGNORE⟩,
    ⟨"ixon", INPUT, K.IXON, IGNORE⟩,
    ⟨"ixany", INPUT, K.IXANY, IGNORE⟩,
    ⟨"ixoff", INPUT, K.IXOFF, IGNORE⟩,
    ⟨"opost", OUTPUT, K.OPOST, IGNORE⟩,
    ⟨"onlcr", OUTPUT, K.ONLCR, IGNORE⟩,
    ⟨"ocrnl", OUTPUT, K.OCRNL, IGNORE⟩,
    ⟨"onocr", OUTPUT, K.ONOCR, IGNORE⟩,
    ⟨"onlret", OUTPUT, K.ONLRET, IGNORE⟩,
    ⟨"ofill", OUTPUT, K.OFILL, IGNORE⟩,
    ⟨"ofdel", OUTPUT, K.OFDEL, IGNORE⟩,
    ⟨"isig", LOCAL, K.ISIG, IGNORE⟩,
    ⟨"icanon", LOCAL, K.ICANON, IGNORE⟩,
    ⟨"iexten", LOCAL, K.IEXTEN, IGNORE⟩,
    ⟨"echo", LOCAL, K.ECHO, IGNORE⟩,
    ⟨"echoe", LOCAL, K.ECHOE, IGNORE⟩,
    ⟨"echok", LOCAL, K.ECHOK, IGNORE⟩,
    ⟨"echonl", LOCAL, K.ECHONL, IGNORE⟩,
    ⟨"noflsh", LOCAL, K.NOFLSH, IGNORE⟩,
    ⟨"tostop", LOCAL, K.TOSTOP, IGNORE⟩ ]

/-- One slot of a field's `options[4]` array.  A slot the initialiser leaves
out is zero-filled: its `string` is the null pointer (`none`), its value 0. -/
structure FieldOption where
  string : Option String
  value : Nat
deriving DecidableEq, Repr

/-- One row of the `fields` table; `options` always has four slots. -/
structure Field where
  mask : Nat
  flag : FLAG
  disposition : DISPOSITION
  options : List FieldOption
deriving DecidableEq, Repr

open FLAG DISPOSITION in
/-- The table `fields`. -/
def fields (K : Consts) : List Field :=
  [ ⟨K.CSIZE, CONTROL, IGNORE,
      [⟨some "cs5", K.CS5⟩, ⟨some "cs6", K.CS6⟩, ⟨some "cs7", K.CS7⟩, ⟨some "cs8", K.CS8⟩]⟩,
    ⟨K.CRDLY, OUTPUT, IGNORE,
      [⟨some "cr0", K.CR0⟩, ⟨some "cr1", K.CR1⟩, ⟨some "cr2", K.CR2⟩, ⟨some "cr3", K.CR3⟩]⟩,
    ⟨K.NLDLY, OUTPUT, IGNORE,
      [⟨some "nl0", K.NL0⟩, ⟨some "nl1", K.NL1⟩, ⟨none, 0⟩, ⟨none, 0⟩]⟩,
    ⟨K.TABDLY, OUTPUT, IGNORE,
      [⟨some "tab0", K.TAB0⟩, ⟨some "tab1", K.TAB1⟩, ⟨some "tab2", K.TAB2⟩,
       ⟨some "tab3", K.TAB3⟩]⟩,
    ⟨K.BSDLY, OUTPUT, IGNORE,
      [⟨some "bs0", K.BS0⟩, ⟨some "bs1", K.BS1⟩, ⟨none, 0⟩, ⟨none, 0⟩]⟩,
    ⟨K.FFDLY, OUTPUT, IGNORE,
      [⟨some "ff0", K.FF0⟩, ⟨some "ff1", K.FF1⟩, ⟨none, 0⟩, ⟨none, 0⟩]⟩,
    ⟨K.VTDLY, OUTPUT, IGNORE,
      [⟨some "vt0", K.VT0⟩, ⟨some "vt1", K.VT1⟩, ⟨none, 0⟩, ⟨none, 0⟩]⟩ ]

/-- The array `escapes`, without its terminating NUL. -/
def escapes : String := "-ABCDEFGHIJKLMNOPQRSTUVWXYZ[\\]^_"

/-- The value of `sizeof(escapes)`: the characters and the terminating NUL. -/
def sizeof_escapes : Nat := escapes.length + 1

/-- The anonymous enumeration of `struct key`: the input mode a key lives in. -/
inductive KeyMode where
  | CANONICAL
  | NONCANONICAL
  | BOTH
deriving DecidableEq, Repr

/-- The type `struct key`. -/
structure Key where
  string : String
  mode : KeyMode
  n : Nat
  newvalue : Int
deriving DecidableEq, Repr

/-- The constant `EOF` of `<stdio.h>`. -/
def EOF : Int := -1

open KeyMode in
/-- The table `keys`. -/
def keys (K : Consts) : List Key :=
  [ ⟨"eof", CANONICAL, K.VEOF, EOF⟩,
    ⟨"eol", CANONICAL, K.VEOL, EOF⟩,
    ⟨"erase", CANONICAL, K.VERASE, EOF⟩,
    ⟨"intr", BOTH, K.VINTR, EOF⟩,
    ⟨"kill", CANONICAL, K.VKILL, EOF⟩,
    ⟨"quit", BOTH, K.VQUIT, EOF⟩,
    ⟨"susp", BOTH, K.VSUSP, EOF⟩,
    ⟨"start", BOTH, K.VSTART, EOF⟩,
    ⟨"stop", BOTH, K.VSTOP, EOF⟩,
    ⟨"min", NONCANONICAL, K.VMIN, EOF⟩,
    ⟨"time", NONCANONICAL, K.VTIME, EOF⟩ ]

/-- The attribute record `struct termios`, with the two speed codes that
`cfgetispeed` and `cfgetospeed` read from it.  `c_cc` maps a slot index to
the byte stored there. -/
structure termios where
  c_iflag : Nat
  c_oflag : Nat
  c_cflag : Nat
  c_lflag : Nat
  c_cc : Nat → Nat
  ispeed : Nat
  ospeed : Nat

/-! ## `speed_to_baud` -/

/-- The loop of `speed_to_baud` from row `i` on: the value of the first row
whose code is `s`, and 0 when the rows are exhausted. -/
def speed_to_baud_loop (s : Nat) : List Speed → Nat
  | [] => 0
  | sp :: rest => if sp.code = s then sp.value else speed_to_baud_loop s rest

/-- The function `speed_to_baud`. -/
def speed_to_baud (K : Consts) (s : Nat) : Nat :=
  speed_to_baud_loop s (speeds K)

/-! ## `cc_to_str` -/

/-- The classification `isprint` of `<ctype.h>` in the C locale, the only
locale the program runs in (it never calls `setlocale`): the bytes from
space to tilde. -/
def isprint (c : Nat) : Bool := decide (32 ≤ c) && decide (c ≤ 126)

/-- The test `strchr(s, c) != NULL`: `c` is one of the bytes of `s`, the
terminating NUL included. -/
def strchr (s : String) (c : Nat) : Bool :=
  (s.data.map Char.toNat ++ [0]).contains c

/-- The function `cc_to_str`; `c` is a `cc_t`, a byte, and `quote` the truth
value of the `int` argument. -/
def cc_to_str (K : Consts) (c : Nat) (quote : Bool) : String :=
  if isprint c then
    if quote && strchr "|&;<>()\x7b\x7d*\\ " c then
      String.mk ['\\', Char.ofNat c]
    else
      String.mk [Char.ofNat c]
  else if c ≠ K.POSIX_VDISABLE ∧ c < sizeof_escapes then
    let string1 := escapes.data.getD c (Char.ofNat 0)
    if quote && string1 == '\\' then
      String.mk ['^', string1, '\\']
    else
      String.mk ['^', string1]
  else if c = DELETE then
    "^?"
  else
    if quote then "^-" else "<undef>"

/-! ## `printkey` -/

/-- The function `printkey`: the text written and the value returned.
`canon` is `t.c_lflag & ICANON`, `format` the character code of the report
format (`97` for `a`, `103` for `g`, `0` for none). -/
def printkey (K : Consts) (k : Key) (canon : Nat) (format : Nat) (t : termios) :
    String × Nat :=
  let eq := if format = 'a'.toNat then " = " else " "
  let r : String × Nat :=
    if k.mode = KeyMode.BOTH ∨ (canon ≠ 0 ∧ k.mode = KeyMode.CANONICAL) then
      let s := k.string ++ eq ++ cc_to_str K (t.c_cc k.n) (format = 'g'.toNat)
      (s, s.length)
    else if canon = 0 ∧ k.mode = KeyMode.NONCANONICAL then
      let s := k.string ++ eq ++ toString (t.c_cc k.n)
      (s, s.length)
    else
      ("", 0)
  if r.2 ≠ 0 ∧ format = 'a'.toNat then
    (r.1 ++ ";", r.2 + 1)
  else
    r

/-! ## `stty_print` -/

/-- The text written so far together with the variable `column`. -/
structure Out where
  text : String
  column : Nat

/-- The flag word a row's `flag` selects, the nested conditional of
`stty_print`; its last alternative, 0, is reached by no value of the
enumeration. -/
def flagWord (t : termios) : FLAG → Nat
  | FLAG.INPUT => t.c_iflag
  | FLAG.OUTPUT => t.c_oflag
  | FLAG.CONTROL => t.c_cflag
  | FLAG.LOCAL => t.c_lflag

/-- One turn of the control-character loop of `stty_print`. -/
def keyStep (K : Consts) (format : Nat) (eol : Char) (t : termios) (o : Out) (k : Key) : Out :=
  let r := printkey K k (t.c_lflag &&& K.ICANON) format t
  let c := r.2
  if c = 0 then
    ⟨o.text ++ r.1, o.column⟩
  else
    let column := o.column + c
    if column ≥ 72 then
      ⟨(o.text ++ r.1).push eol, 0⟩
    else
      ⟨(o.text ++ r.1).push ' ', column + 1⟩

/-- One turn of the single-bit settings loop of `stty_print`. -/
def settingStep (eol : Char) (t : termios) (o : Out) (s : Setting) : Out :=
  let o1 : Out :=
    if s.mask &&& flagWord t s.flag = 0 then ⟨o.text.push '-', o.column + 1⟩ else o
  let o2 : Out := ⟨o1.text ++ s.string, o1.column + s.string.length⟩
  if o2.column ≥ 72 then
    ⟨o2.text.push eol, 0⟩
  else
    ⟨o2.text.push ' ', o2.column + 1⟩

/-- One turn of the inner loop over `options[j]` of a field. -/
def optionStep (value : Nat) (o : Out) (op : FieldOption) : Out :=
  if value = op.value then
    match op.string with
    | some name => ⟨o.text ++ name, o.column + name.length⟩
    | none => o
  else o

/-- One turn of the multiple-option fields loop of `stty_print`. -/
def fieldStep (eol : Char) (t : termios) (o : Out) (f : Field) : Out :=
  let value := f.mask &&& flagWord t f.flag
  let o1 := f.options.foldl (optionStep value) o
  if o1.column > 72 then
    ⟨o1.text.push eol, 0⟩
  else
    ⟨o1.text.push ' ', o1.column + 1⟩

/-- What a run of `stty_print` or `main` leaves behind on the standard streams
and as exit status. -/
structure Printed where
  status : Int
  stdout : String
  stderr : String

/-- The function `stty_print`.  `tty` is what `tcgetattr` gives: the record, or
the message `perror` prints for the error. -/
def stty_print (K : Consts) (format : Nat) (tty : Except String termios) : Printed :=
  let baud := if format = 'a'.toNat then " baud;" else " "
  let eol := if format = 'a'.toNat then '\n' else ' '
  match tty with
  | Except.error msg => ⟨1, "", "stty: " ++ msg ++ "\n"⟩
  | Except.ok t =>
    let speed :=
      if t.ispeed = t.ospeed then
        ("speed " ++ toString (speed_to_baud K t.ispeed) ++ baud).push eol
      else
        ("ispeed " ++ toString (speed_to_baud K t.ispeed) ++ baud ++ " ospeed " ++
          toString (speed_to_baud K t.ospeed) ++ baud).push eol
    let o1 := (keys K).foldl (keyStep K format eol t) ⟨speed, 0⟩
    let o2 : Out := if o1.column ≠ 0 ∧ format = 'a'.toNat then ⟨o1.text.push eol, 0⟩ else o1
    let o3 := (settings K).foldl (settingStep eol t) o2
    let o4 := (fields K).foldl (fieldStep eol t) o3
    ⟨0, if o4.column ≠ 0 then o4.text.push '\n' else o4.text, ""⟩

/-! ## `main` -/

/-- The scanning modes of the GNU `getopt`: `PERMUTE`, its default, steps
over arguments that are no options and moves them behind the options;
`REQUIRE_ORDER`, chosen when the environment variable `POSIXLY_CORRECT` is
set, stops at the first argument that is no option, as POSIX describes. -/
inductive ORDERING where
  | REQUIRE_ORDER
  | PERMUTE
deriving DecidableEq, Repr

/-- The state `getopt` keeps between calls: the vector `argv`, which it may
reorder, `optind`, the option characters of the current element still to be
scanned (none when the next call starts a new element), and the bounds
`first_nonopt` and `last_nonopt` of the non-options it has stepped over. -/
structure GetoptState where
  argv : List String
  optind : Nat
  nextchar : List Char
  first_nonopt : Nat
  last_nonopt : Nat

/-- The test `NONOPTION_P` of `getopt`: the element does not start with `-`,
or it is `-` alone. -/
def NONOPTION_P (a : String) : Bool :=
  match a.data with
  | c0 :: _ :: _ => c0 != '-'
  | _ => true

/-- The routine `exchange` of `getopt`: the non-options in
`argv[first_nonopt .. last_nonopt)` and the options in
`argv[last_nonopt .. optind)` change places, each group keeping its order. -/
def exchange (st : GetoptState) : GetoptState :=
  let bottom := st.first_nonopt
  let middle := st.last_nonopt
  let top := st.optind
  { st with
    argv :=
      if bottom < middle ∧ middle < top then
        st.argv.take bottom ++ (st.argv.drop middle).take (top - middle) ++
          (st.argv.drop bottom).take (middle - bottom) ++ st.argv.drop top
      else st.argv
    first_nonopt := st.first_nonopt + (st.optind - st.last_nonopt)
    last_nonopt := st.optind }

/-- The loop of `getopt` that steps over non-options: the index of the first
element of `rest`, counted from `i`, that is an option, or the end. -/
def skipNonoptions : List String → Nat → Nat
  | [], i => i
  | a :: rest, i => if NONOPTION_P a then skipNonoptions rest (i + 1) else i

/-- The result of `getopt` for the option character `c` followed by `cs` in
the current element, with the option string `"ag"`: the character itself when
it is `a` or `g` and `?` otherwise; `optind` moves on when the element is used
up. -/
def getopt_char (c : Char) (cs : List Char) (st : GetoptState) : Int × GetoptState :=
  (if c = 'a' ∨ c = 'g' then (c.toNat : Int) else ('?'.toNat : Int),
   { st with nextchar := cs, optind := if cs = [] then st.optind + 1 else st.optind })

/-- The first step of `getopt` at the start of an element: the bounds of the
non-options are brought back to `optind` should they lie beyond it. -/
def getopt_rational (st : GetoptState) : GetoptState :=
  { st with
    last_nonopt := if st.last_nonopt > st.optind then st.optind else st.last_nonopt
    first_nonopt := if st.first_nonopt > st.optind then st.optind else st.first_nonopt }

/-- The step of `getopt` in the mode `PERMUTE`: options scanned after some
non-options are moved before them, then further non-options are stepped
over. -/
def getopt_permute (st : GetoptState) : GetoptState :=
  let s : GetoptState :=
    if st.first_nonopt ≠ st.last_nonopt ∧ st.last_nonopt ≠ st.optind then exchange st
    else if st.last_nonopt ≠ st.optind then { st with first_nonopt := st.optind }
    else st
  let i := skipNonoptions (s.argv.drop s.optind) s.optind
  { s with optind := i, last_nonopt := i }

/-- The step of `getopt` at the element `--`: it is stepped over like an
option, moved before the non-options stepped over, and everything after it
counts as non-options. -/
def getopt_dashdash (argc : Nat) (st : GetoptState) : GetoptState :=
  let s : GetoptState := { st with optind := st.optind + 1 }
  let s1 : GetoptState :=
    if s.first_nonopt ≠ s.last_nonopt ∧ s.last_nonopt ≠ s.optind then exchange s
    else if s.first_nonopt = s.last_nonopt then { s with first_nonopt := s.optind }
    else s
  { s1 with last_nonopt := argc, optind := argc }

/-- The last step of `getopt` at the start of an element: at the end of `argv`
it returns -1 with `optind` back at the first non-option stepped over; at a
non-option it returns -1 in the mode `REQUIRE_ORDER`; otherwise it returns
the first option character of the element. -/
def getopt_next (ordering : ORDERING) (argc : Nat) (st : GetoptState) : Int × GetoptState :=
  if st.optind = argc then
    (-1, if st.first_nonopt ≠ st.last_nonopt then { st with optind := st.first_nonopt } else st)
  else
    match st.argv[st.optind]? with
    | none => (-1, st)
    | some a =>
      if NONOPTION_P a then
        if ordering = ORDERING.REQUIRE_ORDER then (-1, st)
        else (1, { st with optind := st.optind + 1 })
      else
        match a.data.tail with
        | c :: cs => getopt_char c cs st
        | [] => (-1, st)

/-- The library function `getopt(argc, argv, "ag")` of the GNU C library in
the scanning mode `ordering`: inside an element it returns the next option
character; at the start of an element it goes through the steps
`getopt_rational`, `getopt_permute` (mode `PERMUTE` only), `getopt_dashdash`
(at `--` only) and `getopt_next`.  No message is written since `opterr` is 0. -/
def getopt (ordering : ORDERING) (st0 : GetoptState) : Int × GetoptState :=
  let argc := st0.argv.length
  if argc < 1 then (-1, st0)
  else
    match st0.nextchar with
    | c :: cs => getopt_char c cs st0
    | [] =>
      let st1 := getopt_rational st0
      let st2 := if ordering = ORDERING.PERMUTE then getopt_permute st1 else st1
      let st3 :=
        if st2.optind ≠ argc ∧ st2.argv[st2.optind]? = some "--" then getopt_dashdash argc st2
        else st2
      getopt_next ordering argc st3

/-- The option loop of `main`, with `fuel` bounding the number of `getopt`
calls: the final `format` and the state `getopt` is left in. -/
def optloop (ordering : ORDERING) : Nat → GetoptState → Nat → Nat × GetoptState
  | 0, st, format => (format, st)
  | fuel + 1, st, format =>
    let r := getopt ordering st
    let c := r.1
    if c = -1 then
      (format, r.2)
    else
      let format1 := if c = 'a'.toNat ∨ c = 'g'.toNat then c.toNat else format
      if c = '?'.toNat then (format1, r.2) else optloop ordering fuel r.2 format1

/-- A number of `getopt` calls the option loop never exceeds: every call
that does not return -1 uses up a character of `argv`. -/
def optfuel (argv : List String) : Nat :=
  (argv.map (fun a => a.length + 1)).sum + 1

/-- The characters of `argv` that `getopt` has not yet looked at in state
`st`, counting one more for each element not yet started. -/
def remaining (st : GetoptState) : Nat :=
  st.nextchar.length +
    ((st.argv.drop (if st.nextchar = [] then st.optind else st.optind + 1)).map
      (fun a => a.length + 1)).sum

/-- What holds of the state of `getopt` between the calls of the option loop:
`optind` lies inside `argv`, and strictly so while an element is scanned. -/
def GetoptBounds (st : GetoptState) : Prop :=
  st.optind ≤ st.argv.length ∧ (st.nextchar ≠ [] → st.optind < st.argv.length)

/-- Two states of `getopt` that differ in `argv[0]` at most and have `optind`
and `first_nonopt` past it. -/
def SameTail (s s1 : GetoptState) : Prop :=
  ∃ (a a1 : String) (tl : List String) (i : Nat) (nc : List Char) (f l : Nat),
    s = ⟨a :: tl, i, nc, f, l⟩ ∧ s1 = ⟨a1 :: tl, i, nc, f, l⟩ ∧ 1 ≤ i ∧ 1 ≤ f

/-- The calls of the terminal interface a run can make. -/
inductive TtyCall where
  | tcgetattr
  | tcsetattr (t : termios)

/-- Everything observable of a run of `main`: exit status, the two output
streams, the `settings` table with its dispositions, and the calls made to
the terminal interface. -/
structure Outcome where
  status : Int
  stdout : String
  stderr : String
  settings : List Setting
  calls : List TtyCall

/-- The search loop of `main` over `settings`: the table with the disposition
of the first row named `opt` replaced (the `goto loop` exit), or `none` when
no row has that name. -/
def setDisposition (opt : String) (d : DISPOSITION) : List Setting → Option (List Setting)
  | [] => none
  | s :: rest =>
    if opt = s.string then some ({ s with disposition := d } :: rest)
    else (setDisposition opt d rest).map (fun r => s :: r)

/-- The chain of alias tests of `main`.  Every branch of the source is an empty
block holding only a comment, so each leaves the table as it is; `arg` is
`argv[optind]`, which the last two tests compare. -/
def aliasChain (opt arg : String) (tbl : List Setting) : List Setting :=
  if opt = "hup" then tbl
  else if opt = "tabs" then tbl
  else if opt = "evenp" ∨ opt = "parity" then tbl
  else if opt = "oddp" then tbl
  else if opt = "raw" then tbl
  else if opt = "cooked" then tbl
  else if opt = "nl" then tbl
  else if arg = "ek" then tbl
  else if arg = "sane" then tbl
  else tbl

/-- The `do ... while` loop of `main` over the operands `argv[optind]`,
`argv[optind + 1]`, ... up to the null pointer that ends `argv`. -/
def operandLoop (tbl : List Setting) : List String → Outcome
  | [] => ⟨0, "", "", tbl, []⟩
  | arg :: rest =>
    let disable : Bool := arg.data.head? = some '-'
    let opt : String := if disable then String.mk arg.data.tail else arg
    match setDisposition opt (if disable then DISPOSITION.CLEAR else DISPOSITION.SET) tbl with
    | some tbl1 => operandLoop tbl1 rest
    | none =>
      ⟨1, "unknown setting '" ++ opt ++ "'\n", "", aliasChain opt arg tbl, []⟩

/-- The option loop of `main` on `argv` with the fuel `main` gives it: the
report format accepted (0 when none was) and the state of `getopt`, which
holds `optind` and `argv` as `getopt` has left it. -/
def options (ordering : ORDERING) (argv : List String) : Nat × GetoptState :=
  optloop ordering (optfuel argv) ⟨argv, 1, [], 1, 1⟩ 0

/-- The operands of a run: the elements of `argv`, as `getopt` has left it,
from `optind` on. -/
def operands (ordering : ORDERING) (argv : List String) : List String :=
  (options ordering argv).2.argv.drop (options ordering argv).2.optind

/-- The function `main`; `argv` holds `argv[0]` too, so `argc` is its length,
and `ordering` is the scanning mode of `getopt` in the environment of the
run. -/
def main (K : Consts) (ordering : ORDERING) (argv : List String)
    (tty : Except String termios) : Outcome :=
  let r := options ordering argv
  let format := r.1
  let optind := r.2.optind
  if optind ≥ argv.length then
    let p := stty_print K (if format ≠ 0 then format else 'a'.toNat) tty
    ⟨p.status, p.stdout, p.stderr, settings K, [TtyCall.tcgetattr]⟩
  else if format ≠ 0 then
    ⟨1, "", "stty: use -a or -g *OR* specify options\n", settings K, []⟩
  else
    operandLoop (settings K) (r.2.argv.drop optind)

/-! ## Vocabulary of the operands -/

/-- The bare name of an operand: the token with one leading dash removed, if
it has one. -/
def bareName (tok : String) : String :=
  if tok.data.head? = some '-' then String.mk tok.data.tail else tok

/-- An operand is negated when it starts with a dash. -/
def isNegated (tok : String) : Bool :=
  decide (tok.data.head? = some '-')

/-- The names of the rows of `settings`. -/
def settingNames (K : Consts) : List String := (settings K).map Setting.string

/-- The last operand of `ops` that names `name`: `none` when no operand does,
otherwise whether that operand is negated. -/
def lastMention (name : String) : List String → Option Bool
  | [] => none
  | tok :: rest =>
    match lastMention name rest with
    | some neg => some neg
    | none => if bareName tok = name then some (isNegated tok) else none

/-- The disposition the operands `ops` call for in row `s`: `CLEAR` or `SET`
after the last operand naming the row, the row as it is when none does. -/
def recorded (ops : List String) (s : Setting) : Setting :=
  match lastMention s.string ops with
  | some neg => { s with disposition := if neg then DISPOSITION.CLEAR else DISPOSITION.SET }
  | none => s

/-- The operands the operand loop of `main` walks, out of operands that all
name settings: all of them when `getopt` stops at the first non-option or
when none is negated; with the scanning mode `PERMUTE` and a negated operand
among them, those from the first negated operand on, since `getopt` steps
over the operands before it and stops at it. -/
def walked (ordering : ORDERING) (ops : List String) : List String :=
  match ordering with
  | ORDERING.REQUIRE_ORDER => ops
  | ORDERING.PERMUTE =>
    if ops.any isNegated then ops.dropWhile (fun a => !isNegated a) else ops

/-- A name of at least two characters that starts with none of `-`, `a`, `g`:
neither it nor its negation is taken for an option by `getopt`. -/
def plainName (name : String) : Bool :=
  match name.data with
  | c :: _ :: _ => c != '-' && c != 'a' && c != 'g'
  | _ => false

/-- The byte a rendering of `cc_to_str` stands for, read back from its
characters: `^?` is 127, a caret and a letter the place of the letter in
`escapes`, a backslash and a character, or a character alone, that character. -/
def cc_of_str (s : String) : Nat :=
  match s.data with
  | ['^', '?'] => 127
  | '^' :: x :: _ => escapes.data.indexOf x
  | ['\\', x] => x.toNat
  | [x] => x.toNat
  | _ => 0

/-- The state of `stty_print` when the single-bit settings loop starts: the
speed line and the control characters are written, and in the format `a` the
line of the control characters is ended. -/
def beforeSettings (K : Consts) (format : Nat) (t : termios) : Out :=
  let baud := if format = 'a'.toNat then " baud;" else " "
  let eol := if format = 'a'.toNat then '\n' else ' '
  let speed :=
    if t.ispeed = t.ospeed then
      ("speed " ++ toString (speed_to_baud K t.ispeed) ++ baud).push eol
    else
      ("ispeed " ++ toString (speed_to_baud K t.ispeed) ++ baud ++ " ospeed " ++
        toString (speed_to_baud K t.ospeed) ++ baud).push eol
  let o1 := (keys K).foldl (keyStep K format eol t) ⟨speed, 0⟩
  if o1.column ≠ 0 ∧ format = 'a'.toNat then ⟨o1.text.push eol, 0⟩ else o1

/-- The speed segment of the format `a` for a record: the rate after `speed`
when both speed codes are equal, both rates otherwise, each followed by
` baud;`. -/
def speedSegment (K : Consts) (t : termios) : String :=
  if t.ispeed = t.ospeed then
    "speed " ++ toString (speed_to_baud K t.ispeed) ++ " baud;"
  else
    "ispeed " ++ toString (speed_to_baud K t.ispeed) ++ " baud; ospeed " ++
      toString (speed_to_baud K t.ospeed) ++ " baud;"

/-- The token of a row of `settings` in a report: the name, with a dash in
front when the bit of the row is clear in the record. -/
def settingToken (t : termios) (s : Setting) : String :=
  if s.mask &&& flagWord t s.flag = 0 then "-" ++ s.string else s.string

/-- A line of tokens: the tokens with one space between neighbours. -/
def lineText : List String → String
  | [] => ""
  | [a] => a
  | a :: b :: rest => a ++ " " ++ lineText (b :: rest)

/-- Tokens of an unfinished line: each token followed by a space. -/
def tailText : List String → String
  | [] => ""
  | a :: rest => a ++ " " ++ tailText rest

/-- Finished lines: each line of tokens followed by a newline. -/
def linesText : List (List String) → String
  | [] => ""
  | g :: rest => lineText g ++ "\n" ++ linesText rest

/-! ## What a field prints, and platforms with distinct option values -/

/-- The names a field prints for a masked value: those of the slots that
carry this value and a name, in table order. -/
def printedNames (value : Nat) (options : List FieldOption) : List String :=
  options.filterMap (fun op => if value = op.value then op.string else none)

/-- The values of the named slots of a field, in table order. -/
def namedValues (f : Field) : List Nat :=
  (f.options.filter (fun op => op.string.isSome)).map FieldOption.value

/-- The platform gives different values to the different options of one
field (to `CS5`, `CS6`, `CS7`, `CS8`, and so on for each row of `fields`). -/
def FieldsDistinct (K : Consts) : Prop :=
  ∀ f ∈ fields K, (namedValues f).Nodup

instance (K : Consts) : Decidable (FieldsDistinct K) := by
  unfold FieldsDistinct
  infer_instance

/-! ## Sample records -/

/-- A record of a terminal in canonical mode: the usual flags of a Linux
console, speed code `B38400` both ways. -/
def sampleTty : termios :=
  ⟨0x500, 0x5, 0xbf, 0x8a3b,
   fun i => [3, 28, 127, 21, 4, 0, 1, 0, 17, 19, 26, 0].getD i 0, 15, 15⟩

/-- The record `sampleTty` with all four flag words cleared (so without
`ICANON`), `VMIN` 1 and `VTIME` 0. -/
def rawTty : termios :=
  ⟨0, 0, 0, 0, fun i => [3, 28, 127, 21, 4, 0, 1, 0, 17, 19, 26, 0].getD i 0, 15, 15⟩

/-- The record `sampleTty` out of canonical mode and with `IGNBRK`, `BRKINT`
and `IGNPAR` set. -/
def wrapTty : termios :=
  { sampleTty with c_iflag := 0x507, c_lflag := 0x8a39 }

/-- The record `sampleTty` with the speed codes `B9600` in and `B19200` out. -/
def splitTty : termios :=
  { sampleTty with ispeed := 13, ospeed := 14 }

/-! ## Theorems -/

/-! ### `speed_to_baud` -/

/-- The loop returns the value of a row whose code occurs once among the rows. -/
theorem speed_to_baud_loop_mem (l : List Speed) (hl : (l.map Speed.code).Nodup)
    (e : Speed) (he : e ∈ l) : speed_to_baud_loop e.code l = e.value := by
  induction l with
  | nil => cases he
  | cons a rest ih =>
    rw [List.map_cons, List.nodup_cons] at hl
    rcases List.mem_cons.mp he with h | h
    · subst h
      simp [speed_to_baud_loop]
    · have hne : a.code ≠ e.code := by
        intro hEq
        exact hl.1 (hEq ▸ List.mem_map_of_mem Speed.code h)
      simp [speed_to_baud_loop, hne, ih hl.2 h]

/-- The loop returns 0 for a code no row carries. -/
theorem speed_to_baud_loop_not_mem (l : List Speed) (s : Nat)
    (hs : ∀ e ∈ l, e.code ≠ s) : speed_to_baud_loop s l = 0 := by
  induction l with
  | nil => rfl
  | cons a rest ih =>
    have ha : a.code ≠ s := hs a (List.mem_cons_self _ _)
    have hr : ∀ e ∈ rest, e.code ≠ s := fun e he => hs e (List.mem_cons_of_mem _ he)
    simp [speed_to_baud_loop, ha, ih hr]

/-- C10: on a platform whose sixteen speed codes are pairwise different,
`speed_to_baud` maps the code of every row of `speeds` to the value of that row
and every code that is in no row to 0; being a total function it never fails. -/
theorem speed_to_baud_table (K : Consts) (hK : ((speeds K).map Speed.code).Nodup) :
    (∀ e ∈ speeds K, speed_to_baud K e.code = e.value) ∧
    (∀ s : Nat, (∀ e ∈ speeds K, e.code ≠ s) → speed_to_baud K s = 0) :=
  ⟨fun e he => speed_to_baud_loop_mem (speeds K) hK e he,
   fun s hs => speed_to_baud_loop_not_mem (speeds K) s hs⟩

/-- C10 at the Linux constants: the row of `B9600` and the unknown code 4097. -/
theorem speed_to_baud_table_witness :
    ((speeds linux).map Speed.code).Nodup ∧
    speed_to_baud linux linux.B9600 = 9600 ∧ speed_to_baud linux 4097 = 0 :=
  ⟨by decide,
   (speed_to_baud_table linux (by decide)).1 ⟨linux.B9600, 9600⟩ (by decide),
   (speed_to_baud_table linux (by decide)).2 4097 (by decide)⟩

/-! ### `cc_to_str` -/

/-- C5: a printable byte renders as a backslash and the byte when `quote` is
set and the byte is one of the twelve shell-special characters, and as the
byte alone otherwise; without `quote` every printable byte renders as itself. -/
theorem cc_to_str_printable (K : Consts) (c : Nat) (quote : Bool)
    (hlo : 32 ≤ c) (hhi : c ≤ 126) :
    cc_to_str K c quote =
      (if quote = true ∧
          Char.ofNat c ∈ ['|', '&', ';', '<', '>', '(', ')', '{', '}', '*', '\\', ' ']
        then String.mk ['\\', Char.ofNat c] else String.mk [Char.ofNat c]) ∧
    cc_to_str K c false = String.mk [Char.ofNat c] := by
  interval_cases c <;> cases quote <;> exact ⟨rfl, rfl⟩

/-- C5 at the bytes of `;` and `A` with quoting on. -/
theorem cc_to_str_printable_witness :
    cc_to_str linux 59 true = "\\;" ∧ cc_to_str linux 65 true = "A" ∧
    cc_to_str linux 59 false = ";" :=
  ⟨(cc_to_str_printable linux 59 true (by decide) (by decide)).1,
   (cc_to_str_printable linux 65 true (by decide) (by decide)).1,
   (cc_to_str_printable linux 59 true (by decide) (by decide)).2⟩

/-- The bytes above `DELETE` and the byte 0 fall through every test of `cc_to_str`
when the disabled sentinel is 0. -/
theorem cc_to_str_undef (K : Consts) (hK : K.POSIX_VDISABLE = 0) (c : Nat) (quote : Bool)
    (hc : c = 0 ∨ 128 ≤ c) : cc_to_str K c quote = if quote then "^-" else "<undef>" := by
  rcases hc with h | h
  · subst h
    simp [cc_to_str, isprint, hK, DELETE]
  · have h1 : ¬ c ≤ 126 := by omega
    have h2 : ¬ c < sizeof_escapes := by
      have : sizeof_escapes = 33 := by decide
      omega
    have h3 : c ≠ DELETE := by
      have : DELETE = 127 := rfl
      omega
    simp [cc_to_str, isprint, h1, h2, h3]

/-- C6: with the disabled sentinel 0, a byte that is not printable renders as
a caret and the `c`-th character of the escape alphabet for `c` from 1 to 31
(followed by one more backslash when `quote` is set and `c` is 28), as `^?` for
127, and as `^-` with `quote` or `<undef>` without it for 0 and for every byte
from 128 to 255. -/
theorem cc_to_str_not_printable (K : Consts) (hK : K.POSIX_VDISABLE = 0) (c : Nat)
    (quote : Bool) (hc : c < 256) (hnp : c < 32 ∨ 126 < c) :
    (1 ≤ c ∧ c ≤ 31 →
      cc_to_str K c quote =
        String.mk (['^', "-ABCDEFGHIJKLMNOPQRSTUVWXYZ[\\]^_".data.getD c ' '] ++
          if quote = true ∧ c = 28 then ['\\'] else [])) ∧
    (c = 127 → cc_to_str K c quote = "^?") ∧
    (c = 0 ∨ 128 ≤ c → cc_to_str K c quote = if quote then "^-" else "<undef>") := by
  refine ⟨?_, ?_, fun h => cc_to_str_undef K hK c quote h⟩
  · rintro ⟨h1, h31⟩
    have hv : ∀ d : Nat, (d ≠ K.POSIX_VDISABLE) = (d ≠ 0) := fun d => by rw [hK]
    interval_cases c <;> cases quote <;>
      simp only [cc_to_str, hv] <;> rfl
  · rintro rfl
    have h2 : ¬ 127 < sizeof_escapes := by decide
    simp [cc_to_str, isprint, h2, DELETE]

/-- C6 at the Linux constants: the bytes 1, 28, 31, 127, 0 and 200. -/
theorem cc_to_str_not_printable_witness :
    cc_to_str linux 1 false = "^A" ∧ cc_to_str linux 28 true = "^\\\\" ∧
    cc_to_str linux 31 true = "^_" ∧ cc_to_str linux 127 true = "^?" ∧
    cc_to_str linux 0 true = "^-" ∧ cc_to_str linux 200 false = "<undef>" :=
  ⟨(cc_to_str_not_printable linux rfl 1 false (by decide) (by decide)).1 (by decide),
   (cc_to_str_not_printable linux rfl 28 true (by decide) (by decide)).1 (by decide),
   (cc_to_str_not_printable linux rfl 31 true (by decide) (by decide)).1 (by decide),
   (cc_to_str_not_printable linux rfl 127 true (by decide) (by decide)).2.1 rfl,
   (cc_to_str_not_printable linux rfl 0 true (by decide) (by decide)).2.2 (by decide),
   (cc_to_str_not_printable linux rfl 200 false (by decide) (by decide)).2.2 (by decide)⟩

/-! ### `printkey` -/

/-- A string of positive length is not the empty string. -/
theorem ne_empty_of_length_pos (s : String) (h : 0 < s.length) : s ≠ "" := by
  intro hs
  rw [hs] at h
  exact Nat.lt_irrefl 0 h

/-- Every row of `keys` has a non-empty name. -/
theorem keys_string_length_pos (K : Consts) (k : Key) (hk : k ∈ keys K) :
    0 < k.string.length := by
  simp only [keys, List.mem_cons, List.mem_singleton, List.not_mem_nil, or_false] at hk
  rcases hk with h | h | h | h | h | h | h | h | h | h | h <;> subst h <;> dsimp only <;> decide

/-- The modes of the rows of `keys`, by name. -/
theorem keys_mode (K : Consts) (k : Key) (hk : k ∈ keys K) :
    (k.mode = KeyMode.NONCANONICAL ↔ k.string ∈ ["min", "time"]) ∧
    (k.mode = KeyMode.CANONICAL ↔ k.string ∈ ["eof", "eol", "erase", "kill"]) ∧
    (k.mode = KeyMode.BOTH ↔ k.string ∈ ["intr", "quit", "susp", "start", "stop"]) := by
  simp only [keys, List.mem_cons, List.mem_singleton, List.not_mem_nil, or_false] at hk
  rcases hk with h | h | h | h | h | h | h | h | h | h | h <;> subst h <;> dsimp only <;> decide

/-- A key whose mode does not fit the input mode prints nothing and returns 0. -/
theorem printkey_skip (K : Consts) (k : Key) (canon format : Nat) (t : termios)
    (h : (canon ≠ 0 ∧ k.mode = KeyMode.NONCANONICAL) ∨
      (canon = 0 ∧ k.mode = KeyMode.CANONICAL)) :
    printkey K k canon format t = ("", 0) := by
  rcases h with ⟨hc, hm⟩ | ⟨hc, hm⟩ <;> simp [printkey, hc, hm]

/-- A key in mode `BOTH` prints a segment that starts with its name. -/
theorem printkey_both (K : Consts) (k : Key) (canon format : Nat) (t : termios)
    (hm : k.mode = KeyMode.BOTH) :
    k.string.length < (printkey K k canon format t).1.length ∧
    (printkey K k canon format t).2 = (printkey K k canon format t).1.length := by
  have h1 : " ".length = 1 := rfl
  have h3 : " = ".length = 3 := rfl
  have hs : ";".length = 1 := rfl
  by_cases hf : format = 'a'.toNat
  · have hne : (k.string ++ " = " ++ cc_to_str K (t.c_cc k.n) (decide (format = 'g'.toNat))).length
        ≠ 0 := by
      simp only [String.length_append, h3]
      omega
    simp only [printkey, hm, true_or, if_true, hf, and_true]
    rw [hf] at hne
    rw [if_pos hne]
    dsimp only
    simp only [String.length_append, h3, hs, and_true]
    omega
  · simp only [printkey, hm, true_or, if_true, hf, and_false, if_false]
    simp only [String.length_append, h1, and_true]
    omega

/-- C7: for every row of `keys`, with the `ICANON` bit set the keys `min` and
`time` (mode `NONCANONICAL`) print nothing and return 0, with the bit clear the
keys `eof`, `eol`, `erase` and `kill` (mode `CANONICAL`) print nothing and
return 0, and the keys `intr`, `quit`, `susp`, `start` and `stop` (mode `BOTH`)
print a non-empty segment whatever the bit; a key that prints nothing leaves
the report and the column of `stty_print` as they were. -/
theorem printkey_gating (K : Consts) (t : termios) (format : Nat) (k : Key)
    (hk : k ∈ keys K) :
    (t.c_lflag &&& K.ICANON ≠ 0 → k.string ∈ ["min", "time"] →
      printkey K k (t.c_lflag &&& K.ICANON) format t = ("", 0) ∧
      ∀ eol o, keyStep K format eol t o k = o) ∧
    (t.c_lflag &&& K.ICANON = 0 → k.string ∈ ["eof", "eol", "erase", "kill"] →
      printkey K k (t.c_lflag &&& K.ICANON) format t = ("", 0) ∧
      ∀ eol o, keyStep K format eol t o k = o) ∧
    (k.string ∈ ["intr", "quit", "susp", "start", "stop"] →
      (printkey K k (t.c_lflag &&& K.ICANON) format t).1 ≠ "" ∧
      (printkey K k (t.c_lflag &&& K.ICANON) format t).2 ≠ 0) := by
  obtain ⟨hn, hc, hb⟩ := keys_mode K k hk
  refine ⟨fun h hs => ?_, fun h hs => ?_, fun hs => ?_⟩
  · have hp := printkey_skip K k _ format t (Or.inl ⟨h, hn.mpr hs⟩)
    refine ⟨hp, fun eol o => ?_⟩
    simp [keyStep, hp]
  · have hp := printkey_skip K k _ format t (Or.inr ⟨h, hc.mpr hs⟩)
    refine ⟨hp, fun eol o => ?_⟩
    simp [keyStep, hp]
  · obtain ⟨h1, h2⟩ := printkey_both K k (t.c_lflag &&& K.ICANON) format t (hb.mpr hs)
    exact ⟨ne_empty_of_length_pos _ (by omega), by omega⟩

/-- C7 at the Linux constants: `min` is skipped in canonical mode, `eof` in
non-canonical mode, and `intr` prints in both. -/
theorem printkey_gating_witness :
    (printkey linux ⟨"min", KeyMode.NONCANONICAL, linux.VMIN, EOF⟩
        (sampleTty.c_lflag &&& linux.ICANON) 97 sampleTty = ("", 0)) ∧
    (printkey linux ⟨"eof", KeyMode.CANONICAL, linux.VEOF, EOF⟩
        (rawTty.c_lflag &&& linux.ICANON) 97 rawTty = ("", 0)) ∧
    (printkey linux ⟨"intr", KeyMode.BOTH, linux.VINTR, EOF⟩
        (rawTty.c_lflag &&& linux.ICANON) 97 rawTty).1 ≠ "" :=
  ⟨((printkey_gating linux sampleTty 97 ⟨"min", KeyMode.NONCANONICAL, linux.VMIN, EOF⟩
      (by decide)).1 (by decide) (by decide)).1,
   ((printkey_gating linux rawTty 97 ⟨"eof", KeyMode.CANONICAL, linux.VEOF, EOF⟩
      (by decide)).2.1 (by decide) (by decide)).1,
   ((printkey_gating linux rawTty 97 ⟨"intr", KeyMode.BOTH, linux.VINTR, EOF⟩
      (by decide)).2.2 (by decide)).1⟩

/-! ### The single-bit settings of `stty_print` -/

/-- The text one turn of the settings loop appends: a dash when the bit is
clear, the name, and the separator the column calls for. -/
theorem settingStep_text (eol : Char) (t : termios) (o : Out) (s : Setting) :
    ∃ sep : Char, (sep = eol ∨ sep = ' ') ∧
      (settingStep eol t o s).text =
        (o.text ++ (if s.mask &&& flagWord t s.flag = 0 then "-" ++ s.string else s.string)).push
          sep := by
  by_cases hb : s.mask &&& flagWord t s.flag = 0
  · simp only [settingStep, hb, if_true]
    split
    · exact ⟨eol, Or.inl rfl, by apply String.ext; simp⟩
    · exact ⟨' ', Or.inr rfl, by apply String.ext; simp⟩
  · simp only [settingStep, hb, if_false]
    split
    · exact ⟨eol, Or.inl rfl, rfl⟩
    · exact ⟨' ', Or.inr rfl, rfl⟩

/-- C8: for a row of `settings` and two records that agree on the row's bit,
the settings loop emits the same token in both reports, whatever the other
bits, the text before it and the column: the bare name when the bit is set,
the name with a dash in front when it is clear; only the separator that
follows the token depends on the column. -/
theorem settingStep_token (K : Consts) (s : Setting) (_hs : s ∈ settings K)
    (t1 t2 : termios)
    (h : s.mask &&& flagWord t1 s.flag = s.mask &&& flagWord t2 s.flag)
    (eol1 eol2 : Char) (o1 o2 : Out) :
    ∃ token : String, ∃ sep1 sep2 : Char,
      (token = if s.mask &&& flagWord t1 s.flag ≠ 0 then s.string else "-" ++ s.string) ∧
      (sep1 = eol1 ∨ sep1 = ' ') ∧ (sep2 = eol2 ∨ sep2 = ' ') ∧
      (settingStep eol1 t1 o1 s).text = (o1.text ++ token).push sep1 ∧
      (settingStep eol2 t2 o2 s).text = (o2.text ++ token).push sep2 := by
  obtain ⟨sep1, hsep1, h1⟩ := settingStep_text eol1 t1 o1 s
  obtain ⟨sep2, hsep2, h2⟩ := settingStep_text eol2 t2 o2 s
  rw [← h] at h2
  refine ⟨_, sep1, sep2, rfl, hsep1, hsep2, ?_, ?_⟩
  · rw [h1]
    by_cases hb : s.mask &&& flagWord t1 s.flag = 0 <;> simp [hb]
  · rw [h2]
    by_cases hb : s.mask &&& flagWord t1 s.flag = 0 <;> simp [hb]

/-- C8 at the Linux constants: the row `echo` on two records that both have
the `ECHO` bit and differ everywhere else. -/
theorem settingStep_token_witness :
    ∃ token : String, ∃ sep1 sep2 : Char,
      (token = if linux.ECHO &&& flagWord sampleTty FLAG.LOCAL ≠ 0 then "echo"
        else "-" ++ "echo") ∧
      (sep1 = '\n' ∨ sep1 = ' ') ∧ (sep2 = ' ' ∨ sep2 = ' ') ∧
      (settingStep '\n' sampleTty ⟨"", 0⟩ ⟨"echo", FLAG.LOCAL, linux.ECHO, DISPOSITION.IGNORE⟩).text
        = (("" : String) ++ token).push sep1 ∧
      (settingStep ' ' { rawTty with c_lflag := 0x8 } ⟨"x ", 70⟩
          ⟨"echo", FLAG.LOCAL, linux.ECHO, DISPOSITION.IGNORE⟩).text
        = ("x " ++ token).push sep2 :=
  settingStep_token linux ⟨"echo", FLAG.LOCAL, linux.ECHO, DISPOSITION.IGNORE⟩ (by decide)
    sampleTty { rawTty with c_lflag := 0x8 } (by decide) '\n' ' ' ⟨"", 0⟩ ⟨"x ", 70⟩

/-! ### The multiple-option fields of `stty_print` -/

/-- A slot with another value, or without a name, adds nothing to the printed
names. -/
theorem printedNames_cons_skip (value : Nat) (op : FieldOption) (rest : List FieldOption)
    (h : value ≠ op.value ∨ op.string = none) :
    printedNames value (op :: rest) = printedNames value rest := by
  unfold printedNames
  rw [List.filterMap_cons]
  rcases h with h | h
  · rw [if_neg h]
  · rw [h]
    simp

/-- A named slot with the value adds its name to the printed names. -/
theorem printedNames_cons_hit (value : Nat) (op : FieldOption) (rest : List FieldOption)
    (name : String) (hv : value = op.value) (hn : op.string = some name) :
    printedNames value (op :: rest) = name :: printedNames value rest := by
  unfold printedNames
  rw [List.filterMap_cons, if_pos hv, hn]

/-- The inner loop over the option slots appends the printed names to the text
and their lengths to the column. -/
theorem options_foldl (value : Nat) (l : List FieldOption) (o : Out) :
    (l.foldl (optionStep value) o).text = (printedNames value l).foldl (· ++ ·) o.text ∧
    (l.foldl (optionStep value) o).column =
      (printedNames value l).foldl (fun c name => c + name.length) o.column := by
  induction l generalizing o with
  | nil => exact ⟨rfl, rfl⟩
  | cons op rest ih =>
    rw [List.foldl_cons]
    obtain ⟨h1, h2⟩ := ih (optionStep value o op)
    rw [h1, h2]
    by_cases hv : value = op.value
    · cases hop : op.string with
      | none =>
        rw [printedNames_cons_skip value op rest (Or.inr hop)]
        simp only [optionStep, if_pos hv, hop, and_self]
      | some name =>
        rw [printedNames_cons_hit value op rest name hv hop]
        simp only [optionStep, if_pos hv, hop, List.foldl_cons, and_self]
    · rw [printedNames_cons_skip value op rest (Or.inl hv)]
      simp only [optionStep, if_neg hv, and_self]

/-- No name is printed when every slot carrying the value is unnamed. -/
theorem printedNames_nil (value : Nat) (l : List FieldOption)
    (h : ∀ op ∈ l, op.value = value → op.string = none) : printedNames value l = [] := by
  induction l with
  | nil => rfl
  | cons op rest ih =>
    have hr := ih (fun x hx => h x (List.mem_cons_of_mem _ hx))
    by_cases hv : value = op.value
    · have hn := h op (List.mem_cons_self _ _) hv.symm
      rw [printedNames_cons_skip value op rest (Or.inr hn), hr]
    · rw [printedNames_cons_skip value op rest (Or.inl hv), hr]

/-- The value of a named slot is among the named values. -/
theorem mem_named (l : List FieldOption) (op : FieldOption) (hop : op ∈ l)
    (hs : op.string.isSome = true) :
    op.value ∈ (l.filter (fun op => op.string.isSome)).map FieldOption.value :=
  List.mem_map_of_mem _ (List.mem_filter.mpr ⟨hop, hs⟩)

/-- Exactly one name is printed when a named slot carries the value and the
named values are pairwise different. -/
theorem printedNames_single (value : Nat) (l : List FieldOption)
    (hnd : ((l.filter (fun op => op.string.isSome)).map FieldOption.value).Nodup)
    (name : String) (hmem : (⟨some name, value⟩ : FieldOption) ∈ l) :
    printedNames value l = [name] := by
  induction l with
  | nil => cases hmem
  | cons op rest ih =>
    rcases List.mem_cons.mp hmem with h | h
    · subst h
      have hrest : printedNames value rest = [] := by
        apply printedNames_nil
        intro x hx hxv
        cases hxs : x.string with
        | none => rfl
        | some nm =>
          exfalso
          have hx2 := mem_named rest x hx (by simp [hxs])
          rw [hxv] at hx2
          simp only [List.filter_cons, Option.isSome_some, if_true, List.map_cons,
            List.nodup_cons] at hnd
          exact hnd.1 hx2
      rw [printedNames_cons_hit value _ rest name rfl rfl, hrest]
    · have hin := mem_named rest _ h (by simp)
      cases hos : op.string with
      | none =>
        have hnd2 : ((rest.filter (fun op => op.string.isSome)).map FieldOption.value).Nodup := by
          simpa [List.filter_cons, hos] using hnd
        rw [printedNames_cons_skip value op rest (Or.inr hos), ih hnd2 h]
      | some nm =>
        simp only [List.filter_cons, hos, Option.isSome_some, if_true, List.map_cons,
          List.nodup_cons] at hnd
        have hv : value ≠ op.value := by
          intro hv
          apply hnd.1
          rw [← hv]
          exact hin
        rw [printedNames_cons_skip value op rest (Or.inl hv), ih hnd.2 h]

/-- C9: on a platform that gives the options of each field different values,
for every record and every row of `fields` the fields loop prints exactly the
names of the slots whose value is the masked flag word and that have a name,
followed by one separator: exactly one name when the masked bits are the
value of a named option, and no name when they are the value of none (a slot
without a name never prints, even when the masked value is 0). -/
theorem fieldStep_names (K : Consts) (hK : FieldsDistinct K) (t : termios) (f : Field)
    (hf : f ∈ fields K) (eol : Char) (o : Out) :
    (∃ sep : Char, (sep = eol ∨ sep = ' ') ∧
      (fieldStep eol t o f).text =
        ((printedNames (f.mask &&& flagWord t f.flag) f.options).foldl (· ++ ·) o.text).push
          sep) ∧
    (∀ name : String,
      (⟨some name, f.mask &&& flagWord t f.flag⟩ : FieldOption) ∈ f.options →
        printedNames (f.mask &&& flagWord t f.flag) f.options = [name]) ∧
    ((∀ op ∈ f.options, op.value = f.mask &&& flagWord t f.flag → op.string = none) →
      printedNames (f.mask &&& flagWord t f.flag) f.options = []) := by
  refine ⟨?_, fun name hn => printedNames_single _ _ (hK f hf) name hn,
    fun h => printedNames_nil _ _ h⟩
  obtain ⟨h1, -⟩ := options_foldl (f.mask &&& flagWord t f.flag) f.options o
  simp only [fieldStep]
  split
  · exact ⟨eol, Or.inl rfl, by rw [h1]⟩
  · exact ⟨' ', Or.inr rfl, by rw [h1]⟩

/-- C9 at the Linux constants: with `CSIZE` bits `0x30` only `cs8` is printed,
and with the `NLDLY` bit clear only `nl0`, not the two unnamed slots of value 0. -/
theorem fieldStep_names_witness :
    FieldsDistinct linux ∧
    printedNames (linux.CSIZE &&& flagWord sampleTty FLAG.CONTROL)
      [⟨some "cs5", linux.CS5⟩, ⟨some "cs6", linux.CS6⟩, ⟨some "cs7", linux.CS7⟩,
       ⟨some "cs8", linux.CS8⟩] = ["cs8"] ∧
    printedNames (linux.NLDLY &&& flagWord sampleTty FLAG.OUTPUT)
      [⟨some "nl0", linux.NL0⟩, ⟨some "nl1", linux.NL1⟩, ⟨none, 0⟩, ⟨none, 0⟩] = ["nl0"] :=
  ⟨by decide,
   (fieldStep_names linux (by decide) sampleTty
      ⟨linux.CSIZE, FLAG.CONTROL, DISPOSITION.IGNORE,
        [⟨some "cs5", linux.CS5⟩, ⟨some "cs6", linux.CS6⟩, ⟨some "cs7", linux.CS7⟩,
         ⟨some "cs8", linux.CS8⟩]⟩ (by decide) '\n' ⟨"", 0⟩).2.1 "cs8" (by decide),
   (fieldStep_names linux (by decide) sampleTty
      ⟨linux.NLDLY, FLAG.OUTPUT, DISPOSITION.IGNORE,
        [⟨some "nl0", linux.NL0⟩, ⟨some "nl1", linux.NL1⟩, ⟨none, 0⟩, ⟨none, 0⟩]⟩
      (by decide) '\n' ⟨"", 0⟩).2.1 "nl0" (by decide)⟩

/-! ### The option loop of `main` -/

/-- The element `argv[i]` heads the elements from `i` on. -/
theorem drop_of_getElem? (argv : List String) (i : Nat) (a : String)
    (h : argv[i]? = some a) : argv.drop i = a :: argv.drop (i + 1) := by
  induction argv generalizing i with
  | nil => simp at h
  | cons b rest ih =>
    cases i with
    | zero =>
      simp only [List.getElem?_cons_zero, Option.some.injEq] at h
      simp [h]
    | succ n =>
      simp only [List.getElem?_cons_succ] at h
      simpa using ih n h

/-- Dropping elements does not add characters. -/
theorem weight_drop_le (l : List String) (k : Nat) :
    ((l.drop k).map (fun a => a.length + 1)).sum ≤ (l.map (fun a => a.length + 1)).sum := by
  induction l generalizing k with
  | nil => simp
  | cons b rest ih =>
    cases k with
    | zero => simp
    | succ n =>
      have := ih n
      simp only [List.drop_succ_cons, List.map_cons, List.sum_cons]
      omega

/-- Dropping more elements leaves fewer characters. -/
theorem weight_drop_mono (l : List String) (i j : Nat) (h : j ≤ i) :
    ((l.drop i).map (fun a => a.length + 1)).sum ≤
      ((l.drop j).map (fun a => a.length + 1)).sum := by
  have hd : l.drop i = (l.drop j).drop (i - j) := by
    rw [List.drop_drop]
    congr 1
    omega
  rw [hd]
  exact weight_drop_le _ _

/-- The loop over the non-options only moves forward. -/
theorem skipNonoptions_ge (l : List String) (i : Nat) : i ≤ skipNonoptions l i := by
  induction l generalizing i with
  | nil => exact Nat.le_refl _
  | cons a rest ih =>
    unfold skipNonoptions
    split
    · exact Nat.le_trans (Nat.le_succ i) (ih (i + 1))
    · exact Nat.le_refl _

/-- The routine `exchange` leaves the elements from `optind` on in place. -/
theorem exchange_drop (st : GetoptState) :
    (exchange st).argv.drop st.optind = st.argv.drop st.optind := by
  unfold exchange
  simp only
  split
  · next h =>
    by_cases hlen : st.optind ≤ st.argv.length
    · apply List.drop_left'
      simp only [List.length_append, List.length_take, List.length_drop]
      omega
    · have h1 : st.argv.drop st.optind = [] := List.drop_eq_nil_of_le (by omega)
      rw [h1, List.append_nil]
      apply List.drop_eq_nil_of_le
      simp only [List.length_append, List.length_take, List.length_drop]
      omega
  · rfl

/-- The step `getopt_permute` keeps `nextchar` and leaves no more characters
from `optind` on than there were. -/
theorem getopt_permute_weight (st : GetoptState) :
    (getopt_permute st).nextchar = st.nextchar ∧
    (((getopt_permute st).argv.drop (getopt_permute st).optind).map
      (fun a => a.length + 1)).sum ≤
      ((st.argv.drop st.optind).map (fun a => a.length + 1)).sum := by
  have hs : ∀ s : GetoptState, s.nextchar = st.nextchar →
      s.argv.drop s.optind = st.argv.drop st.optind →
      ({ s with optind := skipNonoptions (s.argv.drop s.optind) s.optind,
                last_nonopt := skipNonoptions (s.argv.drop s.optind) s.optind } :
          GetoptState).nextchar = st.nextchar ∧
      ((s.argv.drop (skipNonoptions (s.argv.drop s.optind) s.optind)).map
        (fun a => a.length + 1)).sum ≤
        ((st.argv.drop st.optind).map (fun a => a.length + 1)).sum := by
    intro s h1 h2
    refine ⟨h1, ?_⟩
    rw [← h2]
    exact weight_drop_mono _ _ _ (skipNonoptions_ge _ _)
  unfold getopt_permute
  simp only
  split
  · exact hs (exchange st) rfl (exchange_drop st)
  · split
    · exact hs { st with first_nonopt := st.optind } rfl rfl
    · exact hs st rfl rfl

/-- An option character leaves fewer characters to look at. -/
theorem getopt_char_remaining (c : Char) (cs : List Char) (st : GetoptState) :
    remaining (getopt_char c cs st).2 =
      cs.length + ((st.argv.drop (st.optind + 1)).map (fun a => a.length + 1)).sum := by
  unfold getopt_char remaining
  cases cs with
  | nil => simp
  | cons d ds => simp

/-- The step `getopt_next`, when it does not return -1, uses up part of what
lies from `optind` on. -/
theorem getopt_next_progress (ordering : ORDERING) (argc : Nat) (st : GetoptState)
    (hn : st.nextchar = []) (h : (getopt_next ordering argc st).1 ≠ -1) :
    remaining (getopt_next ordering argc st).2 <
      ((st.argv.drop st.optind).map (fun a => a.length + 1)).sum := by
  unfold getopt_next at h ⊢
  split at h
  · exact absurd rfl h
  · rw [if_neg (by assumption)]
    cases ha : st.argv[st.optind]? with
    | none => simp [ha] at h
    | some a =>
      simp only [ha] at h ⊢
      have hd := drop_of_getElem? st.argv st.optind a ha
      have hlen : a.length = a.data.length := rfl
      by_cases hno : NONOPTION_P a = true
      · simp only [hno, if_true] at h ⊢
        by_cases ho : ordering = ORDERING.REQUIRE_ORDER
        · simp [ho] at h
        · simp only [ho, if_false]
          simp only [remaining, hn, List.length_nil, if_true, hd, List.map_cons, List.sum_cons]
          omega
      · have hno1 : NONOPTION_P a = false := by simpa using hno
        simp only [hno1, Bool.false_eq_true, if_false] at h ⊢
        rcases hdata : a.data.tail with _ | ⟨c, cs⟩
        · simp [hdata] at h
        · simp only [hdata]
          rw [getopt_char_remaining, hd, List.map_cons, List.sum_cons, hlen]
          have : a.data.length = (c :: cs).length + 1 := by
            rcases hadata : a.data with _ | ⟨x, xs⟩
            · rw [hadata] at hdata
              simp at hdata
            · rw [hadata] at hdata
              simp only [List.tail_cons] at hdata
              simp [hdata]
          simp only [List.length_cons] at this
          omega

/-- A call of `getopt` that does not return -1 uses up part of `argv`. -/
theorem getopt_progress (ordering : ORDERING) (st : GetoptState)
    (h : (getopt ordering st).1 ≠ -1) :
    remaining (getopt ordering st).2 < remaining st := by
  unfold getopt at h ⊢
  simp only at h ⊢
  split at h
  · exact absurd rfl h
  · rw [if_neg (by assumption)]
    rcases hnc : st.nextchar with _ | ⟨c, cs⟩
    · simp only [hnc] at h ⊢
      have h1 : (getopt_rational st).nextchar = [] := hnc
      have h1w : (getopt_rational st).argv.drop (getopt_rational st).optind
          = st.argv.drop st.optind := rfl
      have h2 : ∀ s2 : GetoptState,
          s2 = (if ordering = ORDERING.PERMUTE then getopt_permute (getopt_rational st)
            else getopt_rational st) →
          s2.nextchar = [] ∧
          ((s2.argv.drop s2.optind).map (fun a => a.length + 1)).sum ≤
            ((st.argv.drop st.optind).map (fun a => a.length + 1)).sum := by
        intro s2 hs2
        by_cases ho : ordering = ORDERING.PERMUTE
        · rw [if_pos ho] at hs2
          obtain ⟨ha, hb⟩ := getopt_permute_weight (getopt_rational st)
          rw [hs2]
          exact ⟨ha.trans h1, by rw [h1w] at hb; exact hb⟩
        · rw [if_neg ho] at hs2
          rw [hs2]
          exact ⟨h1, by rw [h1w]⟩
      generalize hs2 : (if ordering = ORDERING.PERMUTE then getopt_permute (getopt_rational st)
            else getopt_rational st) = s2 at h ⊢
      obtain ⟨hn2, hw2⟩ := h2 s2 hs2.symm
      by_cases hdd : s2.optind ≠ st.argv.length ∧ s2.argv[s2.optind]? = some "--"
      · rw [if_pos hdd] at h
        exfalso
        apply h
        have : (getopt_dashdash st.argv.length s2).optind = st.argv.length := rfl
        simp [getopt_next, this]
      · rw [if_neg hdd] at h ⊢
        have hp := getopt_next_progress ordering st.argv.length s2 hn2 h
        have hr : remaining st = ((st.argv.drop st.optind).map (fun a => a.length + 1)).sum := by
          simp [remaining, hnc]
        omega
    · simp only [hnc] at h ⊢
      rw [getopt_char_remaining]
      simp [remaining, hnc]

/-- Once the fuel exceeds what is left of `argv`, more fuel changes nothing:
the option loop ends by a result of `getopt`, never by the bound. -/
theorem optloop_fuel (ordering : ORDERING) :
    ∀ (fuel : Nat) (st : GetoptState) (format : Nat), remaining st < fuel →
      ∀ more : Nat, fuel ≤ more →
        optloop ordering more st format = optloop ordering fuel st format := by
  intro fuel
  induction fuel with
  | zero => intro st format h; omega
  | succ n ih =>
    intro st format h more hmore
    obtain ⟨m, rfl⟩ : ∃ m, more = m + 1 := ⟨more - 1, by omega⟩
    simp only [optloop]
    by_cases hc : (getopt ordering st).1 = -1
    · simp [hc]
    · have hp := getopt_progress ordering st hc
      simp only [hc, if_false]
      split
      · rfl
      · exact ih _ _ (by omega) m (by omega)

/-- The fuel `main` gives the option loop is enough. -/
theorem optloop_enough_fuel (ordering : ORDERING) (argv : List String) (more : Nat)
    (h : optfuel argv ≤ more) :
    optloop ordering more ⟨argv, 1, [], 1, 1⟩ 0 = options ordering argv := by
  unfold options
  apply optloop_fuel ordering (optfuel argv) ⟨argv, 1, [], 1, 1⟩ 0 _ more h
  cases argv with
  | nil => simp [remaining, optfuel]
  | cons a rest =>
    simp only [remaining, optfuel, List.length_nil, if_true, List.drop_succ_cons, List.drop_zero,
      List.map_cons, List.sum_cons]
    omega

/-! ### `getopt` keeps the length of `argv` -/

/-- The routine `exchange` keeps the length of `argv`. -/
theorem exchange_length (st : GetoptState) (h : st.optind ≤ st.argv.length) :
    (exchange st).argv.length = st.argv.length := by
  unfold exchange
  simp only
  split
  · simp only [List.length_append, List.length_take, List.length_drop]
    omega
  · rfl

/-- The loop over the non-options stops at the end of the list at the latest. -/
theorem skipNonoptions_le (l : List String) (i : Nat) : skipNonoptions l i ≤ i + l.length := by
  induction l generalizing i with
  | nil => exact Nat.le_refl _
  | cons a rest ih =>
    unfold skipNonoptions
    split
    · have := ih (i + 1)
      simp only [List.length_cons]
      omega
    · omega

/-- The step `getopt_permute` keeps the length of `argv` and `optind` inside it. -/
theorem getopt_permute_bounds (st : GetoptState) (h : st.optind ≤ st.argv.length) :
    (getopt_permute st).argv.length = st.argv.length ∧
    (getopt_permute st).optind ≤ st.argv.length := by
  have hs : ∀ s : GetoptState, s.argv.length = st.argv.length → s.optind = st.optind →
      s.argv.length = st.argv.length ∧
      skipNonoptions (s.argv.drop s.optind) s.optind ≤ st.argv.length := by
    intro s h1 h2
    refine ⟨h1, ?_⟩
    have := skipNonoptions_le (s.argv.drop s.optind) s.optind
    rw [List.length_drop, h1, h2] at this
    rw [h2]
    omega
  unfold getopt_permute
  simp only
  split
  · exact hs (exchange st) (exchange_length st h) rfl
  · split
    · exact hs { st with first_nonopt := st.optind } rfl rfl
    · exact hs st rfl rfl

/-- The step `getopt_dashdash` keeps the length of `argv`. -/
theorem getopt_dashdash_length (argc : Nat) (st : GetoptState)
    (h : st.optind + 1 ≤ st.argv.length) :
    (getopt_dashdash argc st).argv.length = st.argv.length := by
  unfold getopt_dashdash
  simp only
  split
  · exact exchange_length { st with optind := st.optind + 1 } h
  · split <;> rfl

/-- The step `getopt_next` leaves `argv` as it is, and when it does not return
-1 it leaves `optind` inside `argv`. -/
theorem getopt_next_bounds (ordering : ORDERING) (argc : Nat) (st : GetoptState)
    (hn : st.nextchar = []) :
    (getopt_next ordering argc st).2.argv = st.argv ∧
    ((getopt_next ordering argc st).1 ≠ -1 → GetoptBounds (getopt_next ordering argc st).2) := by
  unfold getopt_next
  split
  · refine ⟨?_, fun h => absurd rfl h⟩
    split <;> rfl
  · cases ha : st.argv[st.optind]? with
    | none => exact ⟨rfl, fun h => absurd rfl h⟩
    | some a =>
      have hlt : st.optind < st.argv.length := by
        by_contra hge
        rw [List.getElem?_eq_none (by omega)] at ha
        cases ha
      simp only
      by_cases hno : NONOPTION_P a = true
      · simp only [hno, if_true]
        by_cases ho : ordering = ORDERING.REQUIRE_ORDER
        · rw [if_pos ho]
          exact ⟨rfl, fun h => absurd rfl h⟩
        · rw [if_neg ho]
          refine ⟨rfl, fun _ => ⟨?_, fun hne => absurd hn hne⟩⟩
          exact hlt
      · have hno1 : NONOPTION_P a = false := by simpa using hno
        simp only [hno1, Bool.false_eq_true, if_false]
        rcases a.data.tail with _ | ⟨c, cs⟩
        · exact ⟨rfl, fun h => absurd rfl h⟩
        · refine ⟨rfl, fun _ => ?_⟩
          unfold getopt_char GetoptBounds
          simp only
          cases cs with
          | nil => exact ⟨hlt, fun hne => absurd rfl hne⟩
          | cons d ds => exact ⟨by simp; omega, fun _ => by simp; exact hlt⟩

/-- A call of `getopt` keeps the length of `argv`, and when it does not return
-1 it leaves `optind` inside `argv`. -/
theorem getopt_bounds (ordering : ORDERING) (st : GetoptState) (hb : GetoptBounds st) :
    (getopt ordering st).2.argv.length = st.argv.length ∧
    ((getopt ordering st).1 ≠ -1 → GetoptBounds (getopt ordering st).2) := by
  obtain ⟨hb1, hb2⟩ := hb
  unfold getopt
  simp only
  split
  · exact ⟨rfl, fun h => absurd rfl h⟩
  · rcases hnc : st.nextchar with _ | ⟨c, cs⟩
    · simp only
      have h2 : ∀ s2 : GetoptState,
          s2 = (if ordering = ORDERING.PERMUTE then getopt_permute (getopt_rational st)
            else getopt_rational st) →
          s2.nextchar = [] ∧ s2.argv.length = st.argv.length ∧ s2.optind ≤ st.argv.length := by
        intro s2 hs2
        by_cases ho : ordering = ORDERING.PERMUTE
        · rw [if_pos ho] at hs2
          obtain ⟨ha, _⟩ := getopt_permute_weight (getopt_rational st)
          obtain ⟨hc, hd⟩ := getopt_permute_bounds (getopt_rational st) hb1
          rw [hs2]
          exact ⟨ha.trans hnc, hc, hd⟩
        · rw [if_neg ho] at hs2
          rw [hs2]
          exact ⟨hnc, rfl, hb1⟩
      generalize hs2 : (if ordering = ORDERING.PERMUTE then getopt_permute (getopt_rational st)
            else getopt_rational st) = s2
      obtain ⟨hn2, hl2, ho2⟩ := h2 s2 hs2.symm
      by_cases hdd : s2.optind ≠ st.argv.length ∧ s2.argv[s2.optind]? = some "--"
      · rw [if_pos hdd]
        have hopt : (getopt_dashdash st.argv.length s2).optind = st.argv.length := rfl
        have hlen := getopt_dashdash_length st.argv.length s2 (by omega)
        refine ⟨?_, fun h => ?_⟩
        · simp only [getopt_next, hopt, if_true]
          split
          · exact hlen.trans hl2
          · exact hlen.trans hl2
        · exfalso
          apply h
          simp [getopt_next, hopt]
      · rw [if_neg hdd]
        obtain ⟨ha, hbb⟩ := getopt_next_bounds ordering st.argv.length s2 hn2
        exact ⟨by rw [ha]; exact hl2, hbb⟩
    · simp only
      have hlt := hb2 (by rw [hnc]; simp)
      refine ⟨rfl, fun _ => ?_⟩
      unfold getopt_char GetoptBounds
      simp only
      cases cs with
      | nil => exact ⟨hlt, fun hne => absurd rfl hne⟩
      | cons d ds => exact ⟨by simp; omega, fun _ => by simp; exact hlt⟩

/-- The option loop keeps the length of `argv`. -/
theorem optloop_length (ordering : ORDERING) :
    ∀ (fuel : Nat) (st : GetoptState) (format : Nat), GetoptBounds st →
      (optloop ordering fuel st format).2.argv.length = st.argv.length := by
  intro fuel
  induction fuel with
  | zero => intro st format _; rfl
  | succ n ih =>
    intro st format hb
    obtain ⟨hlen, hnext⟩ := getopt_bounds ordering st hb
    simp only [optloop]
    by_cases hc : (getopt ordering st).1 = -1
    · simp only [hc, if_true]
      exact hlen
    · simp only [hc, if_false]
      split
      · exact hlen
      · rw [ih _ _ (hnext hc)]
        exact hlen

/-- After the option loop `argv` has the length it had: `argc` does not change. -/
theorem options_length (ordering : ORDERING) (argv : List String) :
    (options ordering argv).2.argv.length = argv.length := by
  cases argv with
  | nil => rfl
  | cons a rest =>
    unfold options
    rw [optloop_length ordering _ _ _ ⟨by simp, fun h => absurd rfl h⟩]

/-! ### The operand loop of `main` -/

/-- The alias tests change nothing: every branch is empty. -/
theorem aliasChain_eq (opt arg : String) (tbl : List Setting) : aliasChain opt arg tbl = tbl := by
  unfold aliasChain
  repeat' split
  all_goals rfl

/-- One turn of the operand loop, in terms of the bare name of the operand. -/
theorem operandLoop_cons (tbl : List Setting) (arg : String) (rest : List String) :
    operandLoop tbl (arg :: rest) =
      match setDisposition (bareName arg)
          (if isNegated arg then DISPOSITION.CLEAR else DISPOSITION.SET) tbl with
      | some tbl1 => operandLoop tbl1 rest
      | none => ⟨1, "unknown setting '" ++ bareName arg ++ "'\n", "", tbl, []⟩ := by
  rw [operandLoop]
  simp only [aliasChain_eq, bareName, isNegated, decide_eq_true_eq]

/-- When operands are left, `optind` is below `argc`. -/
theorem operands_nonempty (ordering : ORDERING) (argv : List String)
    (h : operands ordering argv ≠ []) : (options ordering argv).2.optind < argv.length := by
  by_contra hge
  apply h
  unfold operands
  apply List.drop_eq_nil_of_le
  rw [options_length]
  omega

/-- When the option loop accepts no format and leaves operands, `main` is the
operand loop over them. -/
theorem main_operands (K : Consts) (ordering : ORDERING) (argv : List String)
    (tty : Except String termios) (hformat : (options ordering argv).1 = 0)
    (hlt : (options ordering argv).2.optind < argv.length) :
    main K ordering argv tty = operandLoop (settings K) (operands ordering argv) := by
  have hge : ¬ (options ordering argv).2.optind ≥ argv.length := by omega
  simp only [main, operands, hge, if_false, hformat, ne_eq, not_true_eq_false]

/-- Every row of the `settings` table starts with the disposition `IGNORE`. -/
theorem settings_ignore (K : Consts) (s : Setting) (hs : s ∈ settings K) :
    s.disposition = DISPOSITION.IGNORE := by
  have hall : (settings K).map Setting.disposition = List.replicate 33 DISPOSITION.IGNORE := rfl
  have hmem : s.disposition ∈ (settings K).map Setting.disposition := List.mem_map_of_mem _ hs
  rw [hall] at hmem
  exact (List.mem_replicate.mp hmem).2

/-- C4: when the option loop has accepted a report format and an operand is
left (`optind` is below `argc` after the loop, in either scanning mode of
`getopt`), `main` returns 1 after writing only its conflict message to the
standard error stream: it makes no call of the terminal interface (no query,
no apply), leaves every disposition at `IGNORE` (no operand is parsed) and
writes nothing, so no report, to the standard output. -/
theorem main_conflict (K : Consts) (ordering : ORDERING) (argv : List String)
    (tty : Except String termios)
    (hformat : (options ordering argv).1 ≠ 0)
    (hops : (options ordering argv).2.optind < argv.length) :
    (main K ordering argv tty).status = 1 ∧
    (main K ordering argv tty).calls = [] ∧
    (main K ordering argv tty).settings = settings K ∧
    (∀ s ∈ (main K ordering argv tty).settings, s.disposition = DISPOSITION.IGNORE) ∧
    (main K ordering argv tty).stdout = "" ∧
    (main K ordering argv tty).stderr = "stty: use -a or -g *OR* specify options\n" := by
  have hlt : ¬ (options ordering argv).2.optind ≥ argv.length := by omega
  have hm : main K ordering argv tty =
      ⟨1, "", "stty: use -a or -g *OR* specify options\n", settings K, []⟩ := by
    simp only [main, hlt, if_false, hformat, ne_eq, not_false_eq_true, if_true]
  rw [hm]
  exact ⟨rfl, rfl, rfl, fun s hs => settings_ignore K s hs, rfl, rfl⟩

/-- C4 at the Linux constants with the default scanning mode of `getopt`:
`stty -a echo`, `stty -g -echo parenb`, and `stty echo -a`, where `getopt`
steps over `echo` and accepts `-a`. -/
theorem main_conflict_witness :
    (main linux ORDERING.PERMUTE ["stty", "-a", "echo"] (Except.ok sampleTty)).status = 1 ∧
    (main linux ORDERING.PERMUTE ["stty", "-a", "echo"] (Except.ok sampleTty)).calls = [] ∧
    (main linux ORDERING.PERMUTE ["stty", "-g", "-echo", "parenb"]
      (Except.ok sampleTty)).stdout = "" ∧
    (main linux ORDERING.PERMUTE ["stty", "echo", "-a"] (Except.ok sampleTty)).stderr
      = "stty: use -a or -g *OR* specify options\n" :=
  ⟨(main_conflict linux ORDERING.PERMUTE ["stty", "-a", "echo"] (Except.ok sampleTty)
      (by decide) (by decide)).1,
   (main_conflict linux ORDERING.PERMUTE ["stty", "-a", "echo"] (Except.ok sampleTty)
      (by decide) (by decide)).2.1,
   (main_conflict linux ORDERING.PERMUTE ["stty", "-g", "-echo", "parenb"] (Except.ok sampleTty)
      (by decide) (by decide)).2.2.2.2.1,
   (main_conflict linux ORDERING.PERMUTE ["stty", "echo", "-a"] (Except.ok sampleTty)
      (by decide) (by decide)).2.2.2.2.2⟩

/-- C3, the code at the operands the claim names: in either scanning mode of
`getopt`, `parity` and `-parity` are not expanded but rejected as unknown
settings with status 1 and every disposition left at `IGNORE`. -/
theorem main_parity_rejected (K : Consts) (ordering : ORDERING)
    (tty : Except String termios) :
    main K ordering ["stty", "parity"] tty =
      ⟨1, "unknown setting 'parity'\n", "", settings K, []⟩ ∧
    main K ordering ["stty", "-parity"] tty =
      ⟨1, "unknown setting 'parity'\n", "", settings K, []⟩ := by
  cases ordering <;> exact ⟨rfl, rfl⟩

/-- C1 as stated fails: for the operand `echo` on a record without the `ECHO`
bit, `main` makes no call of the terminal interface at all, so no record,
and none with the `ECHO` bit set, is handed to `tcsetattr`. -/
theorem main_no_tcsetattr :
    (main linux ORDERING.PERMUTE ["stty", "echo"] (Except.ok rawTty)).calls = [] ∧
    ¬ ∃ t : termios,
        TtyCall.tcsetattr t ∈ (main linux ORDERING.PERMUTE ["stty", "echo"]
          (Except.ok rawTty)).calls ∧
        t.c_lflag &&& linux.ECHO ≠ 0 := by
  have h : (main linux ORDERING.PERMUTE ["stty", "echo"] (Except.ok rawTty)).calls = [] := rfl
  refine ⟨h, ?_⟩
  rintro ⟨t, ht, -⟩
  rw [h] at ht
  cases ht

/-! ### Operands that all name settings -/

/-- The names of the `settings` table, written out. -/
theorem settingNames_eq (K : Consts) :
    settingNames K =
      ["parenb", "parodd", "hupcl", "cstopb", "cread", "clocal", "ignbrk", "brkint", "ignpar",
       "parmrk", "inpck", "inlcr", "igncr", "icrnl", "ixon", "ixany", "ixoff", "opost", "onlcr",
       "ocrnl", "onocr", "onlret", "ofill", "ofdel", "isig", "icanon", "iexten", "echo", "echoe",
       "echok", "echonl", "noflsh", "tostop"] := rfl

/-- No two rows of `settings` have the same name. -/
theorem settingNames_nodup (K : Consts) : (settingNames K).Nodup := by
  rw [settingNames_eq]
  decide

/-- No name of `settings`, negated or not, looks like an option to `getopt`. -/
theorem settingNames_plain (K : Consts) (name : String) (h : name ∈ settingNames K) :
    plainName name = true := by
  rw [settingNames_eq] at h
  revert name
  decide

/-- With unique names the table search rewrites exactly the row named `opt`. -/
theorem setDisposition_eq_map (opt : String) (d : DISPOSITION) (tbl : List Setting)
    (hnd : (tbl.map Setting.string).Nodup) (hmem : opt ∈ tbl.map Setting.string) :
    setDisposition opt d tbl =
      some (tbl.map (fun s => if opt = s.string then { s with disposition := d } else s)) := by
  induction tbl with
  | nil => simp at hmem
  | cons s rest ih =>
    rw [List.map_cons, List.nodup_cons] at hnd
    by_cases hs : opt = s.string
    · have hrest : rest.map (fun x => if opt = x.string then { x with disposition := d } else x)
          = rest := by
        conv_rhs => rw [← List.map_id rest]
        apply List.map_congr_left
        intro x hx
        have hne : ¬ opt = x.string := by
          intro hEq
          exact hnd.1 (hs ▸ hEq ▸ List.mem_map_of_mem Setting.string hx)
        simp [hne]
      simp only [setDisposition, hs, if_true, List.map_cons]
      rw [← hs, hrest]
    · have hmem2 : opt ∈ rest.map Setting.string := by
        rw [List.map_cons] at hmem
        rcases List.mem_cons.mp hmem with h | h
        · exact absurd h hs
        · exact h
      simp only [setDisposition, hs, if_false, List.map_cons, ih hnd.2 hmem2, Option.map_some']

/-- Operands that all name rows of a table with unique names are all accepted:
the loop ends with status 0, writes nothing, calls nothing, and leaves in each
row the disposition its last mention calls for. -/
theorem operandLoop_valid (ops : List String) :
    ∀ tbl : List Setting, (tbl.map Setting.string).Nodup →
      (∀ a ∈ ops, bareName a ∈ tbl.map Setting.string) →
      operandLoop tbl ops = ⟨0, "", "", tbl.map (recorded ops), []⟩ := by
  induction ops with
  | nil =>
    intro tbl _ _
    have : tbl.map (recorded []) = tbl := by
      conv_rhs => rw [← List.map_id tbl]
      exact List.map_congr_left (fun s _ => rfl)
    rw [this]
    rfl
  | cons a rest ih =>
    intro tbl hnd hvalid
    have ha := hvalid a (List.mem_cons_self _ _)
    rw [operandLoop_cons, setDisposition_eq_map _ _ tbl hnd ha]
    have hnames : (tbl.map (fun s => if bareName a = s.string then
        { s with disposition := if isNegated a then DISPOSITION.CLEAR else DISPOSITION.SET }
        else s)).map Setting.string = tbl.map Setting.string := by
      rw [List.map_map]
      apply List.map_congr_left
      intro s _
      by_cases h : bareName a = s.string <;> simp [h]
    simp only
    rw [ih _ (hnames ▸ hnd) (fun x hx => hnames ▸ hvalid x (List.mem_cons_of_mem _ hx)),
      List.map_map]
    congr 1
    apply List.map_congr_left
    intro s _
    simp only [Function.comp, recorded, lastMention]
    by_cases h : bareName a = s.string
    · simp only [h, if_true]
      cases lastMention s.string rest <;> rfl
    · simp only [h, if_false]
      cases lastMention s.string rest <;> rfl

/-- An operand whose bare name is plain is either not negated and a
non-option for `getopt`, or negated and an option element whose first option
character is neither `a` nor `g`; it is never `--`. -/
theorem plain_shape (a : String) (h : plainName (bareName a) = true) :
    (isNegated a = false ∧ NONOPTION_P a = true ∧ a ≠ "--") ∨
    (isNegated a = true ∧ NONOPTION_P a = false ∧ a ≠ "--" ∧
      ∃ c d cs, a.data.tail = c :: d :: cs ∧ c ≠ 'a' ∧ c ≠ 'g') := by
  have hne : ∀ x y zs, a.data = x :: y :: zs → (x ≠ '-' ∨ zs ≠ []) → a ≠ "--" := by
    intro x y zs hd hx hEq
    rw [hEq] at hd
    have hdd : "--".data = ['-', '-'] := rfl
    rw [hdd] at hd
    simp only [List.cons.injEq] at hd
    rcases hx with hx | hx
    · exact hx hd.1.symm
    · exact hx hd.2.2.symm
  unfold plainName bareName at h
  rcases hd : a.data with _ | ⟨c, _ | ⟨d, cs⟩⟩
  · simp [hd] at h
  · by_cases hc : c = '-'
    · subst hc
      simp [hd] at h
    · simp [hd, hc] at h
  · by_cases hc : c = '-'
    · subst hc
      rcases cs with _ | ⟨e, es⟩
      · simp [hd] at h
      · simp only [hd, List.head?_cons, if_true, List.tail_cons, Bool.and_eq_true, bne_iff_ne,
          ne_eq] at h
        obtain ⟨⟨_, h2⟩, h3⟩ := h
        right
        refine ⟨by simp [isNegated, hd], by simp [NONOPTION_P, hd],
          hne _ _ _ hd (Or.inr (by simp)), d, e, es, by simp, h2, h3⟩
    · left
      refine ⟨by simp [isNegated, hd, hc], by simp [NONOPTION_P, hd, hc],
        hne _ _ _ hd (Or.inl hc)⟩

/-- What the loop over the non-options does with operands whose bare names are
plain: without a negated operand it reaches the end; otherwise it stops at
the first negated operand. -/
theorem skipNonoptions_plain (ops : List String)
    (hvalid : ∀ a ∈ ops, plainName (bareName a) = true) :
    ∀ i : Nat,
      (ops.any isNegated = false → skipNonoptions ops i = i + ops.length) ∧
      (ops.any isNegated = true →
        i ≤ skipNonoptions ops i ∧
        ∃ a rest, ops.drop (skipNonoptions ops i - i) = a :: rest ∧
          ops.dropWhile (fun a => !isNegated a) = a :: rest ∧
          isNegated a = true ∧ plainName (bareName a) = true) := by
  induction ops with
  | nil =>
    intro i
    exact ⟨fun _ => rfl, fun h => by simp at h⟩
  | cons a rest ih =>
    intro i
    have ha := hvalid a (List.mem_cons_self _ _)
    have hrest := ih (fun x hx => hvalid x (List.mem_cons_of_mem _ hx)) (i + 1)
    rcases plain_shape a ha with ⟨hn, hp, -⟩ | ⟨hn, hp, -, -⟩
    · have hskip : skipNonoptions (a :: rest) i = skipNonoptions rest (i + 1) := by
        simp [skipNonoptions, hp]
      rw [hskip]
      refine ⟨fun h => ?_, fun h => ?_⟩
      · have h1 : rest.any isNegated = false := by simpa [hn] using h
        rw [hrest.1 h1, List.length_cons]
        omega
      · have h1 : rest.any isNegated = true := by simpa [hn] using h
        obtain ⟨hle, b, rest1, hdrop, hdw, hb1, hb2⟩ := hrest.2 h1
        refine ⟨by omega, b, rest1, ?_, ?_, hb1, hb2⟩
        · have : skipNonoptions rest (i + 1) - i = (skipNonoptions rest (i + 1) - (i + 1)) + 1 := by
            omega
          rw [this, List.drop_succ_cons]
          exact hdrop
        · simp [List.dropWhile_cons, hn, hdw]
    · have hskip : skipNonoptions (a :: rest) i = i := by
        simp [skipNonoptions, hp]
      rw [hskip]
      refine ⟨fun h => ?_, fun _ => ⟨Nat.le_refl _, a, rest, by simp, ?_, hn, ha⟩⟩
      · simp [hn] at h
      · simp [List.dropWhile_cons, hn]

/-- The first call of `getopt` in the mode `PERMUTE`: it steps over the
non-options that follow `argv[0]`. -/
theorem getopt_first_permute (prog : String) (ops : List String) :
    getopt ORDERING.PERMUTE ⟨prog :: ops, 1, [], 1, 1⟩ =
      getopt_next ORDERING.PERMUTE (ops.length + 1)
        (if skipNonoptions ops 1 ≠ ops.length + 1 ∧
            (prog :: ops)[skipNonoptions ops 1]? = some "--"
          then getopt_dashdash (ops.length + 1)
            ⟨prog :: ops, skipNonoptions ops 1, [], 1, skipNonoptions ops 1⟩
          else ⟨prog :: ops, skipNonoptions ops 1, [], 1, skipNonoptions ops 1⟩) := by
  simp [getopt, getopt_rational, getopt_permute]

/-- The first call of `getopt` in the mode `REQUIRE_ORDER`. -/
theorem getopt_first_require (prog : String) (ops : List String) :
    getopt ORDERING.REQUIRE_ORDER ⟨prog :: ops, 1, [], 1, 1⟩ =
      getopt_next ORDERING.REQUIRE_ORDER (ops.length + 1)
        (if 1 ≠ ops.length + 1 ∧ (prog :: ops)[1]? = some "--"
          then getopt_dashdash (ops.length + 1) ⟨prog :: ops, 1, [], 1, 1⟩
          else ⟨prog :: ops, 1, [], 1, 1⟩) := by
  simp [getopt, getopt_rational]

/-- The option loop at an option element whose first option character is
neither `a` nor `g` and is not its last: `getopt` returns `?` and the loop
ends with `optind` at that element and no format accepted. -/
theorem getopt_next_unknown (ordering : ORDERING) (argc : Nat) (st : GetoptState) (a : String)
    (c d : Char) (cs : List Char) (hopt : st.optind ≠ argc) (ha : st.argv[st.optind]? = some a)
    (hno : NONOPTION_P a = false) (htail : a.data.tail = c :: d :: cs)
    (hca : c ≠ 'a') (hcg : c ≠ 'g') :
    getopt_next ordering argc st = (('?'.toNat : Int), { st with nextchar := d :: cs }) := by
  simp [getopt_next, hopt, ha, hno, htail, getopt_char, hca, hcg]

/-- The option loop on operands whose bare names are plain accepts no format
and leaves the operands `walked` describes. -/
theorem options_valid (ordering : ORDERING) (prog : String) (ops : List String)
    (hne : ops ≠ []) (hvalid : ∀ a ∈ ops, plainName (bareName a) = true) :
    (options ordering (prog :: ops)).1 = 0 ∧
    operands ordering (prog :: ops) = walked ordering ops := by
  obtain ⟨n, hn⟩ : ∃ n, optfuel (prog :: ops) = n + 1 := ⟨_, rfl⟩
  have hlen : 1 ≤ ops.length := by
    cases ops with
    | nil => exact absurd rfl hne
    | cons a rest => simp
  have hq : '?'.toNat ≠ 'a'.toNat ∧ '?'.toNat ≠ 'g'.toNat := by decide
  cases ordering with
  | PERMUTE =>
    cases hany : ops.any isNegated with
    | false =>
      have hskip := (skipNonoptions_plain ops hvalid 1).1 hany
      have hopt : options ORDERING.PERMUTE (prog :: ops) =
          (0, ⟨prog :: ops, 1, [], 1, ops.length + 1⟩) := by
        unfold options
        rw [hn]
        simp only [optloop, getopt_first_permute, hskip]
        have h1 : ¬ (1 + ops.length ≠ ops.length + 1) := by omega
        have h2 : 1 + ops.length = ops.length + 1 := by omega
        have h3 : (1 : Nat) ≠ ops.length + 1 := by omega
        simp [getopt_next, h2, h3]
      refine ⟨by rw [hopt], ?_⟩
      unfold operands
      rw [hopt]
      simp [walked, hany]
    | true =>
      obtain ⟨hle, a, rest, hdrop, hdw, hneg, hplain⟩ := (skipNonoptions_plain ops hvalid 1).2 hany
      rcases plain_shape a hplain with ⟨hn1, -, -⟩ | ⟨-, hno, hdd, c, d, cs, htail, hca, hcg⟩
      · rw [hneg] at hn1
        cases hn1
      · have hdrop2 : (prog :: ops).drop (skipNonoptions ops 1) = a :: rest := by
          have : skipNonoptions ops 1 = (skipNonoptions ops 1 - 1) + 1 := by omega
          rw [this, List.drop_succ_cons]
          exact hdrop
        have hget : (prog :: ops)[skipNonoptions ops 1]? = some a := by
          rw [← List.head?_drop, hdrop2]
          rfl
        have hlt : skipNonoptions ops 1 ≠ ops.length + 1 := by
          intro hEq
          rw [hEq] at hdrop2
          have : (prog :: ops).drop (ops.length + 1) = [] :=
            List.drop_eq_nil_of_le (by simp)
          rw [this] at hdrop2
          cases hdrop2
        have hcond : ¬ (skipNonoptions ops 1 ≠ ops.length + 1 ∧
            (prog :: ops)[skipNonoptions ops 1]? = some "--") := by
          rintro ⟨-, h2⟩
          rw [hget] at h2
          exact hdd (Option.some.inj h2)
        have hopt : options ORDERING.PERMUTE (prog :: ops) =
            (0, ⟨prog :: ops, skipNonoptions ops 1, d :: cs, 1, skipNonoptions ops 1⟩) := by
          unfold options
          rw [hn]
          simp only [optloop, getopt_first_permute]
          rw [if_neg hcond,
            getopt_next_unknown ORDERING.PERMUTE _ _ a c d cs hlt hget hno htail hca hcg]
          simp [hq.1, hq.2]
        refine ⟨by rw [hopt], ?_⟩
        unfold operands
        rw [hopt]
        simp only [walked, hany, if_true]
        rw [hdrop2, hdw]
  | REQUIRE_ORDER =>
    obtain ⟨a, rest, rfl⟩ : ∃ a rest, ops = a :: rest := by
      cases ops with
      | nil => exact absurd rfl hne
      | cons a rest => exact ⟨a, rest, rfl⟩
    have hplain := hvalid a (List.mem_cons_self _ _)
    have hget : (prog :: a :: rest)[1]? = some a := by simp
    have hlt : (1 : Nat) ≠ (a :: rest).length + 1 := by simp
    rcases plain_shape a hplain with ⟨-, hno, hdd⟩ | ⟨-, hno, hdd, c, d, cs, htail, hca, hcg⟩
    · have hcond : ¬ ((1 : Nat) ≠ (a :: rest).length + 1 ∧
          (prog :: a :: rest)[1]? = some "--") := by
        rintro ⟨-, h2⟩
        rw [hget] at h2
        exact hdd (Option.some.inj h2)
      have hopt : options ORDERING.REQUIRE_ORDER (prog :: a :: rest) =
          (0, ⟨prog :: a :: rest, 1, [], 1, 1⟩) := by
        unfold options
        rw [hn]
        simp only [optloop, getopt_first_require]
        rw [if_neg hcond]
        simp [getopt_next, hno]
      refine ⟨by rw [hopt], ?_⟩
      unfold operands
      rw [hopt]
      simp [walked]
    · have hcond : ¬ ((1 : Nat) ≠ (a :: rest).length + 1 ∧
          (prog :: a :: rest)[1]? = some "--") := by
        rintro ⟨-, h2⟩
        rw [hget] at h2
        exact hdd (Option.some.inj h2)
      have hopt : options ORDERING.REQUIRE_ORDER (prog :: a :: rest) =
          (0, ⟨prog :: a :: rest, 1, d :: cs, 1, 1⟩) := by
        unfold options
        rw [hn]
        simp only [optloop, getopt_first_require]
        rw [if_neg hcond,
          getopt_next_unknown ORDERING.REQUIRE_ORDER _ _ a c d cs hlt hget hno htail hca hcg]
        simp [hq.1, hq.2]
      refine ⟨by rw [hopt], ?_⟩
      unfold operands
      rw [hopt]
      simp [walked]

/-- The operands `walked` describes are among the operands given. -/
theorem walked_subset (ordering : ORDERING) (ops : List String) :
    ∀ a ∈ walked ordering ops, a ∈ ops := by
  intro a ha
  cases ordering with
  | REQUIRE_ORDER => exact ha
  | PERMUTE =>
    simp only [walked] at ha
    split at ha
    · exact (List.dropWhile_sublist _).subset ha
    · exact ha

/-- Of a non-empty operand list `walked` leaves at least one operand. -/
theorem walked_ne_nil (ordering : ORDERING) (ops : List String) (hne : ops ≠ []) :
    walked ordering ops ≠ [] := by
  cases ordering with
  | REQUIRE_ORDER => exact hne
  | PERMUTE =>
    simp only [walked]
    split
    · next hany =>
      intro hnil
      rw [List.dropWhile_eq_nil_iff] at hnil
      obtain ⟨x, hx, hxn⟩ := List.any_eq_true.mp hany
      have := hnil x hx
      simp [hxn] at this
    · exact hne

/-- For a non-empty list of operands whose bare names are plain, `main` is the
operand loop over the operands `walked` describes. -/
theorem main_valid (K : Consts) (ordering : ORDERING) (prog : String) (ops : List String)
    (tty : Except String termios) (hne : ops ≠ [])
    (hvalid : ∀ a ∈ ops, plainName (bareName a) = true) :
    main K ordering (prog :: ops) tty = operandLoop (settings K) (walked ordering ops) := by
  obtain ⟨hformat, hops⟩ := options_valid ordering prog ops hne hvalid
  have hlt := operands_nonempty ordering (prog :: ops)
    (by rw [hops]; exact walked_ne_nil ordering ops hne)
  rw [main_operands K ordering (prog :: ops) tty hformat hlt, hops]

/-- C1 amended: for every record (or failure) of the terminal and every
non-empty operand list whose tokens all name settings, each optionally with a
dash in front, `main` makes no call of the terminal interface, neither query
nor apply, so the attributes of the terminal stay as they were; it returns 0
and writes nothing.  Its operand loop walks the operands `getopt` leaves from
`optind` on: all of them when `getopt` scans in order or no operand is
negated, and in the default scanning mode those from the first negated
operand on.  In the `settings` table every setting named among the walked
operands gets the disposition `SET` when its last mention there is not
negated and `CLEAR` when it is, and every other row stays at `IGNORE`. -/
theorem main_mutate (K : Consts) (ordering : ORDERING) (prog : String) (ops : List String)
    (tty : Except String termios) (hne : ops ≠ [])
    (hvalid : ∀ a ∈ ops, bareName a ∈ settingNames K) :
    (main K ordering (prog :: ops) tty).calls = [] ∧
    (main K ordering (prog :: ops) tty).status = 0 ∧
    (main K ordering (prog :: ops) tty).stdout = "" ∧
    (main K ordering (prog :: ops) tty).stderr = "" ∧
    (main K ordering (prog :: ops) tty).settings
      = (settings K).map (recorded (walked ordering ops)) ∧
    walked ORDERING.REQUIRE_ORDER ops = ops ∧
    walked ORDERING.PERMUTE ops =
      (if ops.any isNegated then ops.dropWhile (fun a => !isNegated a) else ops) := by
  have hloop := operandLoop_valid (walked ordering ops) (settings K) (settingNames_nodup K)
    (fun a ha => hvalid a (walked_subset ordering ops a ha))
  have hm : main K ordering (prog :: ops) tty =
      ⟨0, "", "", (settings K).map (recorded (walked ordering ops)), []⟩ := by
    rw [main_valid K ordering prog ops tty hne
      (fun a ha => settingNames_plain K _ (hvalid a ha))]
    exact hloop
  rw [hm]
  exact ⟨rfl, rfl, rfl, rfl, rfl, rfl, rfl⟩

/-- C1 amended, at the Linux constants: in the default scanning mode
`stty -echo parenb echo` calls nothing and leaves `parenb` and `echo` at
`SET`, and `stty parenb -echo` records `-echo` only, `parenb` staying at
`IGNORE`; when `getopt` scans in order `stty parenb -echo` records both. -/
theorem main_mutate_witness :
    (main linux ORDERING.PERMUTE ["stty", "-echo", "parenb", "echo"]
      (Except.ok rawTty)).calls = [] ∧
    (main linux ORDERING.PERMUTE ["stty", "-echo", "parenb", "echo"]
      (Except.ok rawTty)).status = 0 ∧
    (main linux ORDERING.PERMUTE ["stty", "-echo", "parenb", "echo"] (Except.ok rawTty)).settings
      = (settings linux).map (recorded (walked ORDERING.PERMUTE ["-echo", "parenb", "echo"])) ∧
    walked ORDERING.PERMUTE ["-echo", "parenb", "echo"] = ["-echo", "parenb", "echo"] ∧
    recorded ["-echo", "parenb", "echo"] ⟨"echo", FLAG.LOCAL, linux.ECHO, DISPOSITION.IGNORE⟩
      = ⟨"echo", FLAG.LOCAL, linux.ECHO, DISPOSITION.SET⟩ ∧
    (main linux ORDERING.PERMUTE ["stty", "parenb", "-echo"] (Except.ok rawTty)).settings
      = (settings linux).map (recorded (walked ORDERING.PERMUTE ["parenb", "-echo"])) ∧
    walked ORDERING.PERMUTE ["parenb", "-echo"] = ["-echo"] ∧
    recorded ["-echo"] ⟨"parenb", FLAG.CONTROL, linux.PARENB, DISPOSITION.IGNORE⟩
      = ⟨"parenb", FLAG.CONTROL, linux.PARENB, DISPOSITION.IGNORE⟩ ∧
    (main linux ORDERING.REQUIRE_ORDER ["stty", "parenb", "-echo"] (Except.ok rawTty)).settings
      = (settings linux).map (recorded (walked ORDERING.REQUIRE_ORDER ["parenb", "-echo"])) ∧
    walked ORDERING.REQUIRE_ORDER ["parenb", "-echo"] = ["parenb", "-echo"] :=
  ⟨(main_mutate linux ORDERING.PERMUTE "stty" ["-echo", "parenb", "echo"] (Except.ok rawTty)
      (by decide) (by decide)).1,
   (main_mutate linux ORDERING.PERMUTE "stty" ["-echo", "parenb", "echo"] (Except.ok rawTty)
      (by decide) (by decide)).2.1,
   (main_mutate linux ORDERING.PERMUTE "stty" ["-echo", "parenb", "echo"] (Except.ok rawTty)
      (by decide) (by decide)).2.2.2.2.1,
   by decide, by decide,
   (main_mutate linux ORDERING.PERMUTE "stty" ["parenb", "-echo"] (Except.ok rawTty)
      (by decide) (by decide)).2.2.2.2.1,
   by decide, by decide,
   (main_mutate linux ORDERING.REQUIRE_ORDER "stty" ["parenb", "-echo"] (Except.ok rawTty)
      (by decide) (by decide)).2.2.2.2.1,
   by decide⟩

/-! ### The run of `main` does not depend on `argv[0]` -/

/-- States that are alike agree in `optind` and in what `argv` holds from
`optind` on. -/
theorem sameTail_fields (s s1 : GetoptState) (h : SameTail s s1) :
    s.optind = s1.optind ∧ s.argv.length = s1.argv.length ∧
    s.argv.drop s.optind = s1.argv.drop s1.optind := by
  obtain ⟨a, a1, tl, i, nc, f, l, rfl, rfl, hi, hf⟩ := h
  obtain ⟨j, rfl⟩ : ∃ j, i = j + 1 := ⟨i - 1, by omega⟩
  exact ⟨rfl, by simp, by simp⟩

/-- The routine `exchange` keeps two states alike. -/
theorem exchange_sameTail (s s1 : GetoptState) (h : SameTail s s1) :
    SameTail (exchange s) (exchange s1) := by
  obtain ⟨a, a1, tl, i, nc, f, l, rfl, rfl, hi, hf⟩ := h
  obtain ⟨f0, rfl⟩ : ∃ j, f = j + 1 := ⟨f - 1, by omega⟩
  by_cases hc : f0 + 1 < l ∧ l < i
  · obtain ⟨l0, rfl⟩ : ∃ j, l = j + 1 := ⟨l - 1, by omega⟩
    obtain ⟨i0, rfl⟩ : ∃ j, i = j + 1 := ⟨i - 1, by omega⟩
    refine ⟨a, a1, tl.take f0 ++ (tl.drop l0).take (i0 + 1 - (l0 + 1)) ++
      (tl.drop f0).take (l0 + 1 - (f0 + 1)) ++ tl.drop i0, i0 + 1, nc,
      f0 + 1 + (i0 + 1 - (l0 + 1)), i0 + 1, ?_, ?_, hi, by omega⟩
    · simp only [exchange, hc, and_self, if_true, List.take_succ_cons, List.drop_succ_cons,
        List.cons_append]
    · simp only [exchange, hc, and_self, if_true, List.take_succ_cons, List.drop_succ_cons,
        List.cons_append]
  · exact ⟨a, a1, tl, i, nc, f0 + 1 + (i - l), i, by simp only [exchange, hc, if_false],
      by simp only [exchange, hc, if_false], hi, by omega⟩

/-- The function `getopt_rational` keeps two states alike. -/
theorem getopt_rational_sameTail (s s1 : GetoptState) (h : SameTail s s1) :
    SameTail (getopt_rational s) (getopt_rational s1) := by
  obtain ⟨a, a1, tl, i, nc, f, l, rfl, rfl, hi, hf⟩ := h
  exact ⟨a, a1, tl, i, nc, _, _, rfl, rfl, hi, by
    show 1 ≤ if f > i then i else f
    split <;> omega⟩

/-- The function `getopt_permute` keeps two states alike. -/
theorem getopt_permute_sameTail (s s1 : GetoptState) (h : SameTail s s1) :
    SameTail (getopt_permute s) (getopt_permute s1) := by
  have hskip : ∀ m m1 : GetoptState, SameTail m m1 →
      SameTail
        { m with optind := skipNonoptions (m.argv.drop m.optind) m.optind,
                 last_nonopt := skipNonoptions (m.argv.drop m.optind) m.optind }
        { m1 with optind := skipNonoptions (m1.argv.drop m1.optind) m1.optind,
                  last_nonopt := skipNonoptions (m1.argv.drop m1.optind) m1.optind } := by
    intro m m1 hm
    obtain ⟨a, a1, tl, i, nc, f, l, rfl, rfl, hi, hf⟩ := hm
    obtain ⟨j, rfl⟩ : ∃ j, i = j + 1 := ⟨i - 1, by omega⟩
    exact ⟨a, a1, tl, _, nc, f, _, rfl, rfl,
      Nat.le_trans hi (skipNonoptions_ge _ _), hf⟩
  apply hskip
  obtain ⟨a, a1, tl, i, nc, f, l, rfl, rfl, hi, hf⟩ := h
  by_cases c1 : f ≠ l ∧ l ≠ i
  · simp only [c1, ne_eq, not_false_eq_true, and_self, if_true]
    exact exchange_sameTail _ _ ⟨a, a1, tl, i, nc, f, l, rfl, rfl, hi, hf⟩
  · by_cases c2 : l ≠ i
    · rw [if_neg c1, if_neg c1, if_pos c2, if_pos c2]
      exact ⟨a, a1, tl, i, nc, i, l, rfl, rfl, hi, hi⟩
    · rw [if_neg c1, if_neg c1, if_neg c2, if_neg c2]
      exact ⟨a, a1, tl, i, nc, f, l, rfl, rfl, hi, hf⟩

/-- The function `getopt_dashdash` keeps two states alike. -/
theorem getopt_dashdash_sameTail (argc : Nat) (hargc : 1 ≤ argc) (s s1 : GetoptState)
    (h : SameTail s s1) :
    SameTail (getopt_dashdash argc s) (getopt_dashdash argc s1) := by
  have hset : ∀ m m1 : GetoptState, SameTail m m1 →
      SameTail { m with last_nonopt := argc, optind := argc }
        { m1 with last_nonopt := argc, optind := argc } := by
    intro m m1 hm
    obtain ⟨a, a1, tl, i, nc, f, l, rfl, rfl, hi, hf⟩ := hm
    exact ⟨a, a1, tl, argc, nc, f, argc, rfl, rfl, hargc, hf⟩
  apply hset
  obtain ⟨a, a1, tl, i, nc, f, l, rfl, rfl, hi, hf⟩ := h
  by_cases c1 : f ≠ l ∧ l ≠ i + 1
  · simp only [c1, ne_eq, not_false_eq_true, and_self, if_true]
    exact exchange_sameTail _ _ ⟨a, a1, tl, i + 1, nc, f, l, rfl, rfl, by omega, hf⟩
  · by_cases c2 : f = l
    · rw [if_neg c1, if_neg c1, if_pos c2, if_pos c2]
      exact ⟨a, a1, tl, i + 1, nc, i + 1, l, rfl, rfl, by omega, by omega⟩
    · rw [if_neg c1, if_neg c1, if_neg c2, if_neg c2]
      exact ⟨a, a1, tl, i + 1, nc, f, l, rfl, rfl, by omega, hf⟩

/-- The function `getopt_char` returns the same character on two states
that are alike, and keeps them alike. -/
theorem getopt_char_sameTail (c : Char) (cs : List Char) (s s1 : GetoptState)
    (h : SameTail s s1) :
    (getopt_char c cs s).1 = (getopt_char c cs s1).1 ∧
    SameTail (getopt_char c cs s).2 (getopt_char c cs s1).2 := by
  obtain ⟨a, a1, tl, i, nc, f, l, rfl, rfl, hi, hf⟩ := h
  refine ⟨rfl, a, a1, tl, _, cs, f, l, rfl, rfl, ?_, hf⟩
  show 1 ≤ if cs = [] then i + 1 else i
  split <;> omega

/-- The function `getopt_next` returns the same on two states that are
alike, and keeps them alike. -/
theorem getopt_next_sameTail (ordering : ORDERING) (argc : Nat) (s s1 : GetoptState)
    (h : SameTail s s1) :
    (getopt_next ordering argc s).1 = (getopt_next ordering argc s1).1 ∧
    SameTail (getopt_next ordering argc s).2 (getopt_next ordering argc s1).2 := by
  have hchar := getopt_char_sameTail
  obtain ⟨a, a1, tl, i, nc, f, l, rfl, rfl, hi, hf⟩ := id h
  obtain ⟨j, rfl⟩ : ∃ j, i = j + 1 := ⟨i - 1, by omega⟩
  simp only [getopt_next, List.getElem?_cons_succ]
  by_cases c1 : j + 1 = argc
  · rw [if_pos c1, if_pos c1]
    refine ⟨rfl, ?_⟩
    by_cases c2 : f ≠ l
    · rw [if_pos c2, if_pos c2]
      exact ⟨a, a1, tl, f, nc, f, l, rfl, rfl, hf, hf⟩
    · rw [if_neg c2, if_neg c2]
      exact h
  · rw [if_neg c1, if_neg c1]
    cases hget : tl[j]? with
    | none => exact ⟨rfl, h⟩
    | some x =>
      simp only
      by_cases c3 : NONOPTION_P x = true
      · rw [if_pos c3, if_pos c3]
        by_cases c4 : ordering = ORDERING.REQUIRE_ORDER
        · rw [if_pos c4, if_pos c4]
          exact ⟨rfl, h⟩
        · rw [if_neg c4, if_neg c4]
          exact ⟨rfl, a, a1, tl, j + 1 + 1, nc, f, l, rfl, rfl, by omega, hf⟩
      · rw [if_neg c3, if_neg c3]
        cases htail : x.data.tail with
        | nil => exact ⟨rfl, h⟩
        | cons c cs => exact hchar c cs _ _ h

/-- One call of `getopt` returns the same on two states that are alike, and
keeps them alike. -/
theorem getopt_sameTail (ordering : ORDERING) (s s1 : GetoptState) (h : SameTail s s1) :
    (getopt ordering s).1 = (getopt ordering s1).1 ∧
    SameTail (getopt ordering s).2 (getopt ordering s1).2 := by
  have hlen : s.argv.length = s1.argv.length := (sameTail_fields s s1 h).2.1
  have hpos : ¬ s.argv.length < 1 := by
    obtain ⟨a, a1, tl, i, nc, f, l, rfl, rfl, hi, hf⟩ := h
    simp
  have hnc : s.nextchar = s1.nextchar := by
    obtain ⟨a, a1, tl, i, nc, f, l, rfl, rfl, hi, hf⟩ := h
    rfl
  simp only [getopt]
  rw [← hlen, if_neg hpos, if_neg hpos, ← hnc]
  cases hn : s.nextchar with
  | cons c cs => exact getopt_char_sameTail c cs s s1 h
  | nil =>
    simp only
    have h1 := getopt_rational_sameTail s s1 h
    have h2 : SameTail
        (if ordering = ORDERING.PERMUTE then getopt_permute (getopt_rational s)
          else getopt_rational s)
        (if ordering = ORDERING.PERMUTE then getopt_permute (getopt_rational s1)
          else getopt_rational s1) := by
      split
      · exact getopt_permute_sameTail _ _ h1
      · exact h1
    generalize (if ordering = ORDERING.PERMUTE then getopt_permute (getopt_rational s)
          else getopt_rational s) = m at h2 ⊢
    generalize (if ordering = ORDERING.PERMUTE then getopt_permute (getopt_rational s1)
          else getopt_rational s1) = m1 at h2 ⊢
    have h3 : SameTail
        (if m.optind ≠ s.argv.length ∧ m.argv[m.optind]? = some "--"
          then getopt_dashdash s.argv.length m else m)
        (if m1.optind ≠ s.argv.length ∧ m1.argv[m1.optind]? = some "--"
          then getopt_dashdash s.argv.length m1 else m1) := by
      have hcond : (m.optind ≠ s.argv.length ∧ m.argv[m.optind]? = some "--") ↔
          (m1.optind ≠ s.argv.length ∧ m1.argv[m1.optind]? = some "--") := by
        obtain ⟨a, a1, tl, i, nc, f, l, rfl, rfl, hi, hf⟩ := h2
        obtain ⟨j, rfl⟩ : ∃ j, i = j + 1 := ⟨i - 1, by omega⟩
        simp
      by_cases c : m.optind ≠ s.argv.length ∧ m.argv[m.optind]? = some "--"
      · rw [if_pos c, if_pos (hcond.mp c)]
        exact getopt_dashdash_sameTail _ (by omega) m m1 h2
      · rw [if_neg c, if_neg (fun hc => c (hcond.mpr hc))]
        exact h2
    exact getopt_next_sameTail ordering _ _ _ h3

/-- The option loop accepts the same format on two states that are alike,
and leaves them alike. -/
theorem optloop_sameTail (ordering : ORDERING) (fuel : Nat) :
    ∀ (s s1 : GetoptState) (format : Nat), SameTail s s1 →
      (optloop ordering fuel s format).1 = (optloop ordering fuel s1 format).1 ∧
      SameTail (optloop ordering fuel s format).2 (optloop ordering fuel s1 format).2 := by
  induction fuel with
  | zero => exact fun s s1 format h => ⟨rfl, h⟩
  | succ n ih =>
    intro s s1 format h
    obtain ⟨hc, hs⟩ := getopt_sameTail ordering s s1 h
    simp only [optloop]
    rw [← hc]
    split
    · exact ⟨rfl, hs⟩
    · split
      · exact ⟨rfl, hs⟩
      · exact ih _ _ _ hs

/-- The fuel of the option loop may be counted without `argv[0]`. -/
theorem options_eq (ordering : ORDERING) (prog : String) (rest : List String) :
    options ordering (prog :: rest) =
      optloop ordering ((rest.map (fun a => a.length + 1)).sum + 1)
        ⟨prog :: rest, 1, [], 1, 1⟩ 0 := by
  unfold options
  apply optloop_fuel
  · simp [remaining]
  · simp only [optfuel, List.map_cons, List.sum_cons]
    omega

/-- The run of `main` does not depend on `argv[0]`. -/
theorem main_prog (K : Consts) (ordering : ORDERING) (prog prog1 : String) (rest : List String)
    (tty : Except String termios) :
    main K ordering (prog :: rest) tty = main K ordering (prog1 :: rest) tty := by
  obtain ⟨h1, h2⟩ := optloop_sameTail ordering ((rest.map (fun a => a.length + 1)).sum + 1)
    ⟨prog :: rest, 1, [], 1, 1⟩ ⟨prog1 :: rest, 1, [], 1, 1⟩ 0
    ⟨prog, prog1, rest, 1, [], 1, 1, rfl, rfl, Nat.le_refl _, Nat.le_refl _⟩
  rw [← options_eq, ← options_eq] at h1 h2
  obtain ⟨g1, -, g3⟩ := sameTail_fields _ _ h2
  simp only [main, List.length_cons]
  rw [← g1] at g3
  rw [← h1, ← g1, ← g3]

/-- When the option loop leaves no operand, `main` is the report in the
format accepted, or in the format `a` when none was. -/
theorem main_report (K : Consts) (ordering : ORDERING) (argv : List String)
    (tty : Except String termios) (format : Nat)
    (hopt : argv.length ≤ (options ordering argv).2.optind)
    (hformat : (if (options ordering argv).1 ≠ 0 then (options ordering argv).1
      else 'a'.toNat) = format) :
    main K ordering argv tty =
      ⟨(stty_print K format tty).status, (stty_print K format tty).stdout,
       (stty_print K format tty).stderr, settings K, [TtyCall.tcgetattr]⟩ := by
  have hge : (options ordering argv).2.optind ≥ argv.length := hopt
  simp only [main, hge, if_true, hformat]

/-! ### The report format `main` selects -/

set_option maxRecDepth 100000 in
/-- C14 as stated fails: `stty` alone on the sample record, in the default
scanning mode of `getopt`, prints the report in the format `a`: the speed line has the word `baud`, and every key pair is
written with ` = ` and followed by `;`. -/
theorem main_default_is_all :
    (main linux ORDERING.PERMUTE ["stty"] (Except.ok sampleTty)).stdout =
      "speed 38400 baud;\neof = ^D; eol = <undef>; erase = ^?; intr = ^C; kill = ^U; quit = ^\\; susp = ^Z;\nstart = ^Q; stop = ^S; \n-parenb -parodd -hupcl -cstopb cread -clocal -ignbrk -brkint -ignpar -parmrk\n-inpck -inlcr -igncr icrnl ixon -ixany -ixoff opost onlcr -ocrnl -onocr -onlret\n-ofill -ofdel isig icanon iexten echo echoe echok -echonl -noflsh -tostop\ncs8 cr0 nl0 tab0 bs0 ff0 vt0 \n" := by
  decide

set_option maxRecDepth 100000 in
/-- C18 as stated fails: `stty -a -g` on the sample record, in the default
scanning mode of `getopt`, is not rejected; it returns 0 and prints the report in the format `g`. -/
theorem main_both_flags_accepted :
    (main linux ORDERING.PERMUTE ["stty", "-a", "-g"] (Except.ok sampleTty)).status = 0 ∧
    (main linux ORDERING.PERMUTE ["stty", "-a", "-g"] (Except.ok sampleTty)).stdout =
      "speed 38400  eof ^D eol ^- erase ^? intr ^C kill ^U quit ^\\\\ susp ^Z start ^Q stop ^S -parenb -parodd -hupcl -cstopb cread -clocal -ignbrk -brkint -ignpar -parmrk -inpck -inlcr -igncr icrnl ixon -ixany -ixoff opost onlcr -ocrnl -onocr -onlret -ofill -ofdel isig icanon iexten echo echoe echok -echonl -noflsh -tostop cs8 cr0 nl0 tab0 bs0 ff0 vt0 \n" := by
  decide

/-- C18 amended: when both `-a` and `-g` are given and no operand, the flag
given last decides: the run is the same as with that flag alone, whether the
two are separate arguments or share one, and it returns 0 with a report when
the terminal can be queried. -/
theorem main_last_flag_wins (K : Consts) (ordering : ORDERING) (prog : String)
    (tty : Except String termios) :
    main K ordering [prog, "-a", "-g"] tty = main K ordering [prog, "-g"] tty ∧
    main K ordering [prog, "-g", "-a"] tty = main K ordering [prog, "-a"] tty ∧
    main K ordering [prog, "-ag"] tty = main K ordering [prog, "-g"] tty ∧
    main K ordering [prog, "-ga"] tty = main K ordering [prog, "-a"] tty ∧
    (∀ t : termios, (main K ordering [prog, "-a", "-g"] (Except.ok t)).status = 0 ∧
      (main K ordering [prog, "-g", "-a"] (Except.ok t)).status = 0 ∧
      (main K ordering [prog, "-a", "-g"] (Except.ok t)).calls = [TtyCall.tcgetattr]) := by
  have e : ∀ (rest : List String) (tty1 : Except String termios),
      main K ordering (prog :: rest) tty1 = main K ordering ("stty" :: rest) tty1 :=
    fun rest tty1 => main_prog K ordering prog "stty" rest tty1
  have hag := fun tty1 => main_report K ordering ["stty", "-a", "-g"] tty1 'g'.toNat
    (by cases ordering <;> decide) (by cases ordering <;> decide)
  have hga := fun tty1 => main_report K ordering ["stty", "-g", "-a"] tty1 'a'.toNat
    (by cases ordering <;> decide) (by cases ordering <;> decide)
  have hg := fun tty1 => main_report K ordering ["stty", "-g"] tty1 'g'.toNat
    (by cases ordering <;> decide) (by cases ordering <;> decide)
  have ha := fun tty1 => main_report K ordering ["stty", "-a"] tty1 'a'.toNat
    (by cases ordering <;> decide) (by cases ordering <;> decide)
  have hag1 := fun tty1 => main_report K ordering ["stty", "-ag"] tty1 'g'.toNat
    (by cases ordering <;> decide) (by cases ordering <;> decide)
  have hga1 := fun tty1 => main_report K ordering ["stty", "-ga"] tty1 'a'.toNat
    (by cases ordering <;> decide) (by cases ordering <;> decide)
  simp only [e, hag, hga, hg, ha, hag1, hga1]
  exact ⟨trivial, trivial, trivial, trivial, fun _ => ⟨rfl, rfl, trivial⟩⟩

/-- C17, the code at a rejected operand: the diagnostic for `frobnicate` is
written to the standard output and the standard error stream stays empty,
whereas the message for a flag combined with operands goes to the standard
error stream. -/
theorem main_unknown_on_stdout (K : Consts) (ordering : ORDERING)
    (tty : Except String termios) :
    (main K ordering ["stty", "frobnicate"] tty).status = 1 ∧
    (main K ordering ["stty", "frobnicate"] tty).stdout = "unknown setting 'frobnicate'\n" ∧
    (main K ordering ["stty", "frobnicate"] tty).stderr = "" ∧
    (main K ordering ["stty", "-a", "frobnicate"] tty).stdout = "" ∧
    (main K ordering ["stty", "-a", "frobnicate"] tty).stderr
      = "stty: use -a or -g *OR* specify options\n" := by
  cases ordering <;> exact ⟨rfl, rfl, rfl, rfl, rfl⟩

set_option maxRecDepth 100000 in
/-- C13, the code at a failing input: `stty -g` on the record `wrapTty` writes a
report that ends with a space after `vt0` and holds no newline at all, in
either scanning mode of `getopt`. -/
theorem main_g_no_final_newline (ordering : ORDERING) :
    (main linux ordering ["stty", "-g"] (Except.ok wrapTty)).stdout =
      "speed 38400  intr ^C quit ^\\\\ susp ^Z start ^Q stop ^S min 1 time 0 -parenb -parodd -hupcl -cstopb cread -clocal ignbrk brkint ignpar -parmrk -inpck -inlcr -igncr icrnl ixon -ixany -ixoff opost onlcr -ocrnl -onocr -onlret -ofill -ofdel isig -icanon iexten echo echoe echok -echonl -noflsh -tostop cs8 cr0 nl0 tab0 bs0 ff0 vt0 " ∧
    '\n' ∉ (main linux ordering ["stty", "-g"] (Except.ok wrapTty)).stdout.data := by
  cases ordering <;> decide

/-! ### Last mention wins -/

/-- Reading back the rendering of a byte from 1 to 127 gives the byte. -/
theorem cc_of_str_cc_to_str (K : Consts) (hK : K.POSIX_VDISABLE = 0) (quote : Bool) (c : Nat)
    (h1 : 1 ≤ c) (h127 : c ≤ 127) : cc_of_str (cc_to_str K c quote) = c := by
  have hv : ∀ d : Nat, (d ≠ K.POSIX_VDISABLE) = (d ≠ 0) := fun d => by rw [hK]
  by_cases hlo : c < 32
  · interval_cases c <;> cases quote <;> simp only [cc_to_str, hv] <;> rfl
  · by_cases hhi : c ≤ 126
    · have h32 : 32 ≤ c := by omega
      interval_cases c <;> cases quote <;> rfl
    · have hc : c = 127 := by omega
      subst hc
      have h2 : ¬ 127 < sizeof_escapes := by decide
      cases quote <;> simp [cc_to_str, isprint, h2, DELETE] <;> rfl

/-- C20: with the disabled sentinel 0 and for each value of `quote`, two bytes
from 1 to 127 that render to the same string are the same byte, whereas the
byte 0 and every byte from 128 to 255 render to one and the same undefined
marker, `^-` with `quote` and `<undef>` without. -/
theorem cc_to_str_injective (K : Consts) (hK : K.POSIX_VDISABLE = 0) (quote : Bool) :
    (∀ c d : Nat, 1 ≤ c → c ≤ 127 → 1 ≤ d → d ≤ 127 →
      cc_to_str K c quote = cc_to_str K d quote → c = d) ∧
    (∀ c : Nat, c = 0 ∨ (128 ≤ c ∧ c ≤ 255) →
      cc_to_str K c quote = cc_to_str K 0 quote ∧
      cc_to_str K c quote = if quote then "^-" else "<undef>") := by
  refine ⟨fun c d hc1 hc2 hd1 hd2 heq => ?_, fun c hc => ?_⟩
  · have h1 := cc_of_str_cc_to_str K hK quote c hc1 hc2
    have h2 := cc_of_str_cc_to_str K hK quote d hd1 hd2
    rw [heq] at h1
    omega
  · have hc0 : c = 0 ∨ 128 ≤ c := by omega
    rw [cc_to_str_undef K hK c quote hc0, cc_to_str_undef K hK 0 quote (Or.inl rfl)]
    exact ⟨rfl, rfl⟩

/-- C20 at the Linux constants: the bytes 28 and 92 render differently with
quoting on, and the bytes 0 and 200 render alike. -/
theorem cc_to_str_injective_witness :
    cc_to_str linux 28 true ≠ cc_to_str linux 92 true ∧
    cc_to_str linux 200 true = cc_to_str linux 0 true :=
  ⟨fun h => absurd ((cc_to_str_injective linux rfl true).1 28 92 (by decide) (by decide)
      (by decide) (by decide) h) (by decide),
   ((cc_to_str_injective linux rfl true).2 200 (by decide)).1⟩

/-! ### The text of `stty_print` grows at its end -/

/-- The function `stty_print` in terms of the state before the settings loop. -/
theorem stty_print_ok (K : Consts) (format : Nat) (t : termios) :
    stty_print K format (Except.ok t) =
      ⟨0,
        if ((fields K).foldl (fieldStep (if format = 'a'.toNat then '\n' else ' ') t)
            ((settings K).foldl (settingStep (if format = 'a'.toNat then '\n' else ' ') t)
              (beforeSettings K format t))).column ≠ 0
        then ((fields K).foldl (fieldStep (if format = 'a'.toNat then '\n' else ' ') t)
            ((settings K).foldl (settingStep (if format = 'a'.toNat then '\n' else ' ') t)
              (beforeSettings K format t))).text.push '\n'
        else ((fields K).foldl (fieldStep (if format = 'a'.toNat then '\n' else ' ') t)
            ((settings K).foldl (settingStep (if format = 'a'.toNat then '\n' else ' ') t)
              (beforeSettings K format t))).text,
        ""⟩ := rfl

/-- Writing a character appends the one-character string. -/
theorem push_eq_append (s : String) (c : Char) : s.push c = s ++ String.singleton c := by
  apply String.ext
  simp

/-- A loop whose turns only append text only appends text. -/
theorem foldl_extends {α : Type} (step : Out → α → Out)
    (hstep : ∀ o a, ∃ r : String, (step o a).text = o.text ++ r) (l : List α) :
    ∀ o : Out, ∃ r : String, (l.foldl step o).text = o.text ++ r := by
  induction l with
  | nil => exact fun o => ⟨"", by simp⟩
  | cons a rest ih =>
    intro o
    obtain ⟨r1, h1⟩ := hstep o a
    obtain ⟨r2, h2⟩ := ih (step o a)
    exact ⟨r1 ++ r2, by rw [List.foldl_cons, h2, h1, String.append_assoc]⟩

/-- A turn of the control-character loop only appends text. -/
theorem keyStep_extends (K : Consts) (format : Nat) (eol : Char) (t : termios) (o : Out)
    (k : Key) : ∃ r : String, (keyStep K format eol t o k).text = o.text ++ r := by
  simp only [keyStep]
  split
  · exact ⟨_, rfl⟩
  · split
    · exact ⟨_, by rw [push_eq_append, String.append_assoc]⟩
    · exact ⟨_, by rw [push_eq_append, String.append_assoc]⟩

/-- A turn of the settings loop only appends text. -/
theorem settingStep_extends (eol : Char) (t : termios) (o : Out) (s : Setting) :
    ∃ r : String, (settingStep eol t o s).text = o.text ++ r := by
  obtain ⟨sep, -, h⟩ := settingStep_text eol t o s
  exact ⟨_, by rw [h, push_eq_append, String.append_assoc]⟩

/-- A turn of the fields loop only appends text. -/
theorem fieldStep_extends (eol : Char) (t : termios) (o : Out) (f : Field) :
    ∃ r : String, (fieldStep eol t o f).text = o.text ++ r := by
  obtain ⟨r, hr⟩ := foldl_extends (optionStep (f.mask &&& flagWord t f.flag))
    (fun o op => by
      unfold optionStep
      split
      · split
        · exact ⟨_, rfl⟩
        · exact ⟨"", by simp⟩
      · exact ⟨"", by simp⟩) f.options o
  simp only [fieldStep]
  split
  · exact ⟨_, by rw [hr, push_eq_append, String.append_assoc]⟩
  · exact ⟨_, by rw [hr, push_eq_append, String.append_assoc]⟩

/-- The value `speed_to_baud` returns is 0 or a value of the table. -/
theorem speed_to_baud_values (K : Consts) (s : Nat) :
    speed_to_baud K s ∈
      [0, 50, 75, 110, 134, 150, 200, 300, 600, 1200, 1800, 2400, 4800, 9600, 19200, 38400] := by
  have hloop : ∀ l : List Speed,
      speed_to_baud_loop s l = 0 ∨ speed_to_baud_loop s l ∈ l.map Speed.value := by
    intro l
    induction l with
    | nil => exact Or.inl rfl
    | cons a rest ih =>
      by_cases h : a.code = s
      · simp [speed_to_baud_loop, h]
      · rcases ih with h0 | hm
        · simp [speed_to_baud_loop, h, h0]
        · right
          simp only [speed_to_baud_loop, h, if_false, List.map_cons]
          exact List.mem_cons_of_mem _ hm
  have hvals : (speeds K).map Speed.value =
      [0, 50, 75, 110, 134, 150, 200, 300, 600, 1200, 1800, 2400, 4800, 9600, 19200, 38400] := rfl
  rcases hloop (speeds K) with h | h
  · unfold speed_to_baud
    rw [h]
    decide
  · unfold speed_to_baud
    rw [hvals] at h
    exact h

/-- The decimal form of a rate `speed_to_baud` returns has no semicolon. -/
theorem baud_no_semicolon (K : Consts) (s : Nat) :
    (toString (speed_to_baud K s)).data.count ';' = 0 := by
  have h := speed_to_baud_values K s
  generalize speed_to_baud K s = v at h
  revert v
  decide

/-! ### The speed segment -/

/-- In the format `a` the text before the settings loop starts with the speed
segment and a newline. -/
theorem beforeSettings_speed (K : Consts) (t : termios) :
    ∃ r : String, (beforeSettings K 'a'.toNat t).text = speedSegment K t ++ "\n" ++ r := by
  have hs : ∃ o : Out, o.text = speedSegment K t ++ "\n" ∧
      beforeSettings K 'a'.toNat t =
        (if ((keys K).foldl (keyStep K 'a'.toNat '\n' t) o).column ≠ 0 ∧ 'a'.toNat = 'a'.toNat
          then ⟨((keys K).foldl (keyStep K 'a'.toNat '\n' t) o).text.push '\n', 0⟩
          else (keys K).foldl (keyStep K 'a'.toNat '\n' t) o) := by
    by_cases h : t.ispeed = t.ospeed
    · refine ⟨⟨("speed " ++ toString (speed_to_baud K t.ispeed) ++ " baud;").push '\n', 0⟩, ?_, ?_⟩
      · simp only [speedSegment, h, if_true]
        exact push_eq_append _ _
      · simp only [beforeSettings, h, if_true]
    · refine ⟨⟨("ispeed " ++ toString (speed_to_baud K t.ispeed) ++ " baud;" ++ " ospeed " ++
          toString (speed_to_baud K t.ospeed) ++ " baud;").push '\n', 0⟩, ?_, ?_⟩
      · simp only [speedSegment, h, if_false]
        rw [push_eq_append]
        apply String.ext
        simp
      · simp only [beforeSettings, h, if_true, if_false]
  obtain ⟨o, ho, hb⟩ := hs
  obtain ⟨r, hr⟩ := foldl_extends (keyStep K 'a'.toNat '\n' t)
    (fun o k => keyStep_extends K 'a'.toNat '\n' t o k) (keys K) o
  rw [hb]
  split
  · exact ⟨r ++ String.singleton '\n', by
      simp only
      rw [push_eq_append, hr, ho, String.append_assoc]⟩
  · exact ⟨r, by rw [hr, ho]⟩

set_option maxRecDepth 100000 in
/-- C11 as stated fails: with the speed codes `B9600` in and `B19200` out the
report of the format `a` starts with `ispeed 9600 baud; ospeed 19200 baud;`
and a newline, not with the segment of the claim, which has no semicolon
after the first `baud`. -/
theorem speed_segment_two_semicolons :
    "ispeed 9600 baud; ospeed 19200 baud;\n".data.isPrefixOf
      (stty_print linux 'a'.toNat (Except.ok splitTty)).stdout.data = true ∧
    "ispeed 9600 baud ospeed 19200 baud;".data.isPrefixOf
      (stty_print linux 'a'.toNat (Except.ok splitTty)).stdout.data = false := by
  decide

/-- C11 amended: for every record the report of the format `a` begins with
the speed segment and a newline; the segment is `speed`, the rate and ` baud;`
when the two speed codes are equal, and `ispeed`, the input rate, ` baud;`,
` ospeed`, the output rate and ` baud;` when they differ, the rates being the
decimal values of `speed_to_baud`.  A semicolon follows each `baud`: the
segment has one semicolon in the first form and two in the second, and ends
with one. -/
theorem speed_segment_all (K : Consts) (t : termios) :
    (∃ rest : String,
      (stty_print K 'a'.toNat (Except.ok t)).stdout = speedSegment K t ++ "\n" ++ rest) ∧
    speedSegment K t =
      (if t.ispeed = t.ospeed then
        "speed " ++ toString (speed_to_baud K t.ispeed) ++ " baud;"
      else
        "ispeed " ++ toString (speed_to_baud K t.ispeed) ++ " baud; ospeed " ++
          toString (speed_to_baud K t.ospeed) ++ " baud;") ∧
    (speedSegment K t).data.count ';' = (if t.ispeed = t.ospeed then 1 else 2) ∧
    (speedSegment K t).data.getLast? = some ';' := by
  refine ⟨?_, rfl, ?_, ?_⟩
  · obtain ⟨r0, h0⟩ := beforeSettings_speed K t
    obtain ⟨r1, h1⟩ := foldl_extends (settingStep '\n' t)
      (fun o s => settingStep_extends '\n' t o s) (settings K) (beforeSettings K 'a'.toNat t)
    obtain ⟨r2, h2⟩ := foldl_extends (fieldStep '\n' t)
      (fun o f => fieldStep_extends '\n' t o f) (fields K)
      ((settings K).foldl (settingStep '\n' t) (beforeSettings K 'a'.toNat t))
    rw [stty_print_ok]
    simp only [if_true]
    split
    · exact ⟨r0 ++ r1 ++ r2 ++ String.singleton '\n', by
        rw [push_eq_append, h2, h1, h0]
        simp only [String.append_assoc]⟩
    · exact ⟨r0 ++ r1 ++ r2, by
        rw [h2, h1, h0]
        simp only [String.append_assoc]⟩
  · have hi := baud_no_semicolon K t.ispeed
    have ho := baud_no_semicolon K t.ospeed
    have h1 : "speed ".data.count ';' = 0 := by decide
    have h2 : " baud;".data.count ';' = 1 := by decide
    have h3 : "ispeed ".data.count ';' = 0 := by decide
    have h4 : " baud; ospeed ".data.count ';' = 1 := by decide
    unfold speedSegment
    split <;> simp only [String.data_append, List.count_append, hi, ho, h1, h2, h3, h4]
  · have h2 : (" baud;".data).getLast? = some ';' := rfl
    unfold speedSegment
    split <;> simp only [String.data_append, List.getLast?_append, h2, Option.or_some]

/-! ### Line breaks in the settings block -/

/-- A name of `settings` has between 4 and 6 characters, none of them a
newline or a space. -/
theorem settingNames_shape (K : Consts) (name : String) (h : name ∈ settingNames K) :
    4 ≤ name.length ∧ name.length ≤ 6 ∧ '\n' ∉ name.data ∧ ' ' ∉ name.data := by
  rw [settingNames_eq] at h
  revert name
  decide

/-- The token of a row of `settings` has between 4 and 7 characters, none of
them a newline or a space. -/
theorem settingToken_shape (K : Consts) (t : termios) (s : Setting) (hs : s ∈ settings K) :
    4 ≤ (settingToken t s).length ∧ (settingToken t s).length ≤ 7 ∧
    '\n' ∉ (settingToken t s).data ∧ ' ' ∉ (settingToken t s).data := by
  obtain ⟨h1, h2, h3, h4⟩ := settingNames_shape K s.string (List.mem_map_of_mem _ hs)
  have hd : "-".length = 1 := rfl
  have hdd : "-".data = ['-'] := rfl
  unfold settingToken
  split
  · refine ⟨?_, ?_, ?_, ?_⟩
    · rw [String.length_append, hd]; omega
    · rw [String.length_append, hd]; omega
    · rw [String.data_append, hdd]
      simp only [List.singleton_append, List.mem_cons, not_or]
      exact ⟨by decide, h3⟩
    · rw [String.data_append, hdd]
      simp only [List.singleton_append, List.mem_cons, not_or]
      exact ⟨by decide, h4⟩
  · exact ⟨h1, by omega, h3, h4⟩

/-- One turn of the settings loop in terms of the token: the token is written
whole, then the column decides between the end of the line and a space. -/
theorem settingStep_eq (eol : Char) (t : termios) (o : Out) (s : Setting) :
    settingStep eol t o s =
      if o.column + (settingToken t s).length ≥ 72 then
        ⟨o.text ++ settingToken t s ++ String.singleton eol, 0⟩
      else
        ⟨o.text ++ settingToken t s ++ " ", o.column + (settingToken t s).length + 1⟩ := by
  have hd : "-".length = 1 := rfl
  by_cases hb : s.mask &&& flagWord t s.flag = 0
  · have htext : o.text ++ String.singleton '-' ++ s.string = o.text ++ ("-" ++ s.string) := by
      apply String.ext
      simp
    have hcol : o.column + 1 + s.string.length = o.column + ("-" ++ s.string).length := by
      rw [String.length_append, hd]
      omega
    simp only [settingStep, settingToken, hb, if_true, hcol, push_eq_append, htext]
    rfl
  · simp only [settingStep, settingToken, hb, if_false, push_eq_append]
    rfl

set_option maxRecDepth 100000 in
/-- C12 as stated fails: on the sample record the first line of the settings
block in the format `a` is 76 columns long; the line break comes after
`-parmrk`, the token that takes the column from 69 to 76, not before it. -/
theorem settings_line_exceeds_72 :
    ((settings linux).foldl (settingStep '\n' sampleTty) ⟨"", 0⟩).text =
      "-parenb -parodd -hupcl -cstopb cread -clocal -ignbrk -brkint -ignpar -parmrk" ++ "\n" ++
      "-inpck -inlcr -igncr icrnl ixon -ixany -ixoff opost onlcr -ocrnl -onocr -onlret\n-ofill -ofdel isig icanon iexten echo echoe echok -echonl -noflsh -tostop\n" ∧
    "-parenb -parodd -hupcl -cstopb cread -clocal -ignbrk -brkint -ignpar -parmrk".length = 76 ∧
    "-parenb -parodd -hupcl -cstopb cread -clocal -ignbrk -brkint -ignpar ".length = 69 := by
  decide

/-- C12 amended: for every record rendered in the format `a` and every row of
`settings`, the token is written whole and without a newline inside; a line
break is written right after the token that brings the running column to 72
or more, and the column starts again at 0, so a finished line of the block has
at least 72 columns; otherwise a space follows the token. -/
theorem settingStep_wrap (K : Consts) (t : termios) (s : Setting) (hs : s ∈ settings K)
    (o : Out) :
    '\n' ∉ (settingToken t s).data ∧
    (72 ≤ o.column + (settingToken t s).length →
      settingStep '\n' t o s = ⟨o.text ++ settingToken t s ++ "\n", 0⟩) ∧
    (o.column + (settingToken t s).length < 72 →
      settingStep '\n' t o s =
        ⟨o.text ++ settingToken t s ++ " ", o.column + (settingToken t s).length + 1⟩) := by
  refine ⟨(settingToken_shape K t s hs).2.2.1, fun h => ?_, fun h => ?_⟩
  · rw [settingStep_eq, if_pos h]
    rfl
  · rw [settingStep_eq, if_neg (by omega)]

/-- C12 amended, at the Linux constants: on the sample record `-parmrk` at
column 69 is followed by the line break, and `cread` at column 31 by a space. -/
theorem settingStep_wrap_witness :
    settingStep '\n' sampleTty ⟨"x", 69⟩ ⟨"parmrk", FLAG.INPUT, linux.PARMRK, DISPOSITION.IGNORE⟩
      = ⟨"x" ++ settingToken sampleTty
          ⟨"parmrk", FLAG.INPUT, linux.PARMRK, DISPOSITION.IGNORE⟩ ++ "\n", 0⟩ ∧
    settingStep '\n' sampleTty ⟨"x", 31⟩ ⟨"cread", FLAG.CONTROL, linux.CREAD, DISPOSITION.IGNORE⟩
      = ⟨"x" ++ settingToken sampleTty
          ⟨"cread", FLAG.CONTROL, linux.CREAD, DISPOSITION.IGNORE⟩ ++ " ",
         31 + (settingToken sampleTty
          ⟨"cread", FLAG.CONTROL, linux.CREAD, DISPOSITION.IGNORE⟩).length + 1⟩ :=
  ⟨(settingStep_wrap linux sampleTty ⟨"parmrk", FLAG.INPUT, linux.PARMRK, DISPOSITION.IGNORE⟩
      (by decide) ⟨"x", 69⟩).2.1 (by decide),
   (settingStep_wrap linux sampleTty ⟨"cread", FLAG.CONTROL, linux.CREAD, DISPOSITION.IGNORE⟩
      (by decide) ⟨"x", 31⟩).2.2 (by decide)⟩

/-! ### The lines of the settings block -/

/-- A line of tokens that goes on after its first token. -/
theorem lineText_cons (a : String) (l : List String) (h : l ≠ []) :
    lineText (a :: l) = a ++ " " ++ lineText l := by
  cases l with
  | nil => exact absurd rfl h
  | cons b rest => rfl

/-- A line ending with the token `a` is the unfinished line before it and `a`. -/
theorem lineText_snoc (l : List String) (a : String) :
    lineText (l ++ [a]) = tailText l ++ a := by
  induction l with
  | nil => rfl
  | cons b rest ih =>
    rw [List.cons_append, lineText_cons b (rest ++ [a]) (by simp), ih]
    simp only [tailText, String.append_assoc]

/-- An unfinished line with one more token. -/
theorem tailText_snoc (l : List String) (a : String) :
    tailText (l ++ [a]) = tailText l ++ a ++ " " := by
  induction l with
  | nil => simp [tailText]
  | cons b rest ih =>
    rw [List.cons_append]
    simp only [tailText, ih, String.append_assoc]

/-- Finished lines with one more line. -/
theorem linesText_snoc (ls : List (List String)) (g : List String) :
    linesText (ls ++ [g]) = linesText ls ++ lineText g ++ "\n" := by
  induction ls with
  | nil => simp [linesText]
  | cons h rest ih =>
    rw [List.cons_append]
    simp only [linesText, ih, String.append_assoc]

/-- The settings loop, started at column 0 and run over rows whose tokens
have at most 7 characters, writes finished lines of 72 to 79 columns followed
by an unfinished line whose length, spaces included, is the column. -/
theorem wrap_lines (t : termios) (o0 : Out) (h0 : o0.column = 0) (ss : List Setting) :
    (∀ s ∈ ss, (settingToken t s).length ≤ 7) →
    ∃ (lines : List (List String)) (last : List String),
      ss.map (settingToken t) = lines.flatten ++ last ∧
      (ss.foldl (settingStep '\n' t) o0).text = o0.text ++ linesText lines ++ tailText last ∧
      (∀ g ∈ lines, 72 ≤ (lineText g).length ∧ (lineText g).length ≤ 79) ∧
      (ss.foldl (settingStep '\n' t) o0).column = (tailText last).length ∧
      (ss.foldl (settingStep '\n' t) o0).column ≤ 72 := by
  induction ss using List.reverseRecOn with
  | nil =>
    intro _
    exact ⟨[], [], rfl, by simp [linesText, tailText], by simp, by simp [tailText, h0],
      by simp [h0]⟩
  | append_singleton l a ih =>
    intro hlen
    obtain ⟨lines, last, hmap, htext, hlines, hcol, hle⟩ :=
      ih (fun s hs => hlen s (List.mem_append_left _ hs))
    have ha := hlen a (List.mem_append_right _ (List.mem_singleton_self a))
    rw [List.foldl_append, List.foldl_cons, List.foldl_nil, settingStep_eq]
    by_cases hw : (l.foldl (settingStep '\n' t) o0).column + (settingToken t a).length ≥ 72
    · rw [if_pos hw]
      refine ⟨lines ++ [last ++ [settingToken t a]], [], ?_, ?_, ?_, ?_, ?_⟩
      · simp [hmap]
      · simp only [htext, linesText_snoc, lineText_snoc, tailText, String.append_assoc,
          String.append_empty]
        rfl
      · intro g hg
        rcases List.mem_append.mp hg with h | h
        · exact hlines g h
        · rw [List.mem_singleton] at h
          rw [h, lineText_snoc, String.length_append, ← hcol]
          omega
      · rfl
      · exact Nat.zero_le _
    · rw [if_neg hw]
      refine ⟨lines, last ++ [settingToken t a], ?_, ?_, hlines, ?_, ?_⟩
      · simp [hmap]
      · simp only [htext, tailText_snoc, String.append_assoc]
      · have h1 : " ".length = 1 := rfl
        simp only [tailText_snoc, String.length_append, h1, hcol]
      · simp only
        omega

/-- A property of the state that every turn of a loop keeps holds after the
loop. -/
theorem foldl_invariant {α : Type} (P : Out → Prop) (step : Out → α → Out)
    (hstep : ∀ o a, P o → P (step o a)) (l : List α) : ∀ o : Out, P o → P (l.foldl step o) := by
  induction l with
  | nil => exact fun o h => h
  | cons a rest ih => exact fun o h => ih (step o a) (hstep o a h)

/-- A key for which `printkey` returns 0 has written nothing. -/
theorem printkey_zero (K : Consts) (k : Key) (canon format : Nat) (t : termios)
    (h : (printkey K k canon format t).2 = 0) : (printkey K k canon format t).1 = "" := by
  have hlen : ∀ s : String, s.length = 0 → s = "" := by
    intro s hs
    apply String.ext
    exact List.length_eq_zero.mp hs
  have key : ∀ r : String × Nat, (r.2 = 0 → r.1 = "") →
      (if r.2 ≠ 0 ∧ format = 'a'.toNat then (r.1 ++ ";", r.2 + 1) else r).2 = 0 →
      (if r.2 ≠ 0 ∧ format = 'a'.toNat then (r.1 ++ ";", r.2 + 1) else r).1 = "" := by
    intro r hr
    split
    · intro h0
      simp at h0
    · exact hr
  refine key
    (if k.mode = KeyMode.BOTH ∨ (canon ≠ 0 ∧ k.mode = KeyMode.CANONICAL) then
      (k.string ++ (if format = 'a'.toNat then " = " else " ") ++
          cc_to_str K (t.c_cc k.n) (format = 'g'.toNat),
        (k.string ++ (if format = 'a'.toNat then " = " else " ") ++
          cc_to_str K (t.c_cc k.n) (format = 'g'.toNat)).length)
    else if canon = 0 ∧ k.mode = KeyMode.NONCANONICAL then
      (k.string ++ (if format = 'a'.toNat then " = " else " ") ++ toString (t.c_cc k.n),
        (k.string ++ (if format = 'a'.toNat then " = " else " ") ++
          toString (t.c_cc k.n)).length)
    else ("", 0)) ?_ h
  split
  · exact hlen _
  · split
    · exact hlen _
    · exact fun _ => rfl

/-- In the format `a` the settings block starts at column 0, right after a
newline. -/
theorem beforeSettings_newline (K : Consts) (t : termios) :
    (beforeSettings K 'a'.toNat t).column = 0 ∧
    (beforeSettings K 'a'.toNat t).text.data.getLast? = some '\n' := by
  have hinv : ∀ o : Out, (o.column = 0 → o.text.data.getLast? = some '\n') →
      (((keys K).foldl (keyStep K 'a'.toNat '\n' t) o).column = 0 →
        ((keys K).foldl (keyStep K 'a'.toNat '\n' t) o).text.data.getLast? = some '\n') := by
    apply foldl_invariant (fun o => o.column = 0 → o.text.data.getLast? = some '\n')
    intro o k ho
    simp only [keyStep]
    split
    · next hz =>
      rw [printkey_zero K k _ _ t hz, String.append_empty]
      exact ho
    · split
      · intro _
        simp only [String.data_push]
        exact List.getLast?_concat _
      · intro hc
        simp at hc
  have hpush : ∀ s : String, (s.push '\n').data.getLast? = some '\n' := by
    intro s
    simp only [String.data_push]
    exact List.getLast?_concat _
  have hgen : ∀ speed : String, speed.data.getLast? = some '\n' →
      (if ((keys K).foldl (keyStep K 'a'.toNat '\n' t) ⟨speed, 0⟩).column ≠ 0 ∧
            'a'.toNat = 'a'.toNat
        then (⟨((keys K).foldl (keyStep K 'a'.toNat '\n' t) ⟨speed, 0⟩).text.push '\n', 0⟩ : Out)
        else (keys K).foldl (keyStep K 'a'.toNat '\n' t) ⟨speed, 0⟩).column = 0 ∧
      (if ((keys K).foldl (keyStep K 'a'.toNat '\n' t) ⟨speed, 0⟩).column ≠ 0 ∧
            'a'.toNat = 'a'.toNat
        then (⟨((keys K).foldl (keyStep K 'a'.toNat '\n' t) ⟨speed, 0⟩).text.push '\n', 0⟩ : Out)
        else (keys K).foldl (keyStep K 'a'.toNat '\n' t) ⟨speed, 0⟩).text.data.getLast?
        = some '\n' := by
    intro speed hspeed
    by_cases hz : ((keys K).foldl (keyStep K 'a'.toNat '\n' t) ⟨speed, 0⟩).column = 0
    · rw [if_neg (fun h => h.1 hz)]
      exact ⟨hz, hinv _ (fun _ => hspeed) hz⟩
    · rw [if_pos ⟨hz, rfl⟩]
      exact ⟨rfl, hpush _⟩
  unfold beforeSettings
  refine hgen _ ?_
  simp only [if_true]
  split <;> exact hpush _

/-- C19: for every record rendered in the format `a`, the settings block
starts at column 0 right after a newline, and after any number `n` of rows
what the block has written is a sequence of finished lines, each a run of
whole tokens separated by single spaces, 72 to 79 characters long and ended by
a newline that follows its last token directly, and then the tokens of the
unfinished line, each followed by a space, whose total length is the running
column.  The tokens hold no newline and no space, so these are all the
newlines of the block, and a turn that ends with a newline leaves the column
at 0. -/
theorem settings_block_lines (K : Consts) (t : termios) (n : Nat) :
    (beforeSettings K 'a'.toNat t).column = 0 ∧
    (beforeSettings K 'a'.toNat t).text.data.getLast? = some '\n' ∧
    (∀ s ∈ settings K, settingToken t s ≠ "" ∧ '\n' ∉ (settingToken t s).data ∧
      ' ' ∉ (settingToken t s).data) ∧
    (∃ (lines : List (List String)) (last : List String),
      ((settings K).take n).map (settingToken t) = lines.flatten ++ last ∧
      (((settings K).take n).foldl (settingStep '\n' t) (beforeSettings K 'a'.toNat t)).text =
        (beforeSettings K 'a'.toNat t).text ++ linesText lines ++ tailText last ∧
      (∀ g ∈ lines, 72 ≤ (lineText g).length ∧ (lineText g).length ≤ 79) ∧
      (((settings K).take n).foldl (settingStep '\n' t) (beforeSettings K 'a'.toNat t)).column =
        (tailText last).length) ∧
    (∀ (o : Out) (s : Setting), (settingStep '\n' t o s).text.data.getLast? = some '\n' →
      (settingStep '\n' t o s).column = 0) := by
  obtain ⟨hcol, hnl⟩ := beforeSettings_newline K t
  refine ⟨hcol, hnl, fun s hs => ?_, ?_, fun o s h => ?_⟩
  · obtain ⟨h1, -, h3, h4⟩ := settingToken_shape K t s hs
    exact ⟨ne_empty_of_length_pos _ (by omega), h3, h4⟩
  · obtain ⟨lines, last, h1, h2, h3, h4, -⟩ := wrap_lines t (beforeSettings K 'a'.toNat t) hcol
      ((settings K).take n)
      (fun s hs => (settingToken_shape K t s (List.mem_of_mem_take hs)).2.1)
    exact ⟨lines, last, h1, h2, h3, h4⟩
  · rw [settingStep_eq] at h ⊢
    split
    · rfl
    · next hw =>
      rw [if_neg hw] at h
      have hsp : " ".data.getLast? = some ' ' := rfl
      simp only [String.data_append, List.getLast?_append, hsp, Option.or_some,
        Option.some.injEq] at h
      exact absurd h (by decide)

/-! ### The end of the report -/

/-- In the format `a` the report of every record ends with a newline: there
the end of a line is a newline, so column 0 means that one was just written. -/
theorem stty_print_all_ends_newline (K : Consts) (t : termios) :
    (stty_print K 'a'.toNat (Except.ok t)).stdout.data.getLast? = some '\n' := by
  have hpush : ∀ s : String, (s.push '\n').data.getLast? = some '\n' := by
    intro s
    simp only [String.data_push]
    exact List.getLast?_concat _
  obtain ⟨hcol, hnl⟩ := beforeSettings_newline K t
  have h3 := foldl_invariant (fun o => o.column = 0 → o.text.data.getLast? = some '\n')
    (settingStep '\n' t)
    (fun o s _ => by
      rw [settingStep_eq]
      split
      · intro _
        rw [← push_eq_append]
        exact hpush _
      · intro hc
        simp at hc) (settings K) (beforeSettings K 'a'.toNat t) (fun _ => hnl)
  have h4 := foldl_invariant (fun o => o.column = 0 → o.text.data.getLast? = some '\n')
    (fieldStep '\n' t)
    (fun o f _ => by
      simp only [fieldStep]
      split
      · exact fun _ => hpush _
      · intro hc
        simp at hc) (fields K) _ h3
  rw [stty_print_ok]
  simp only [if_true]
  split
  · exact hpush _
  · next hz => exact h4 (not_not.mp hz)


/-! ### The format of a run without a flag -/

/-- A text that begins with a given text in both branches of a test begins
with it. -/
theorem ite_extends (c : Prop) [Decidable c] (a b pre : String)
    (ha : ∃ r : String, a = pre ++ r) (hb : ∃ r : String, b = pre ++ r) :
    ∃ r : String, (if c then a else b) = pre ++ r := by
  split
  · exact ha
  · exact hb

/-- The control-character loop and the end of its line only append text. -/
theorem keys_extends (K : Consts) (format : Nat) (eol : Char) (t : termios) (speed : String) :
    ∃ r : String,
      (if ((keys K).foldl (keyStep K format eol t) ⟨speed, 0⟩).column ≠ 0 ∧ format = 'a'.toNat
        then (⟨((keys K).foldl (keyStep K format eol t) ⟨speed, 0⟩).text.push eol, 0⟩ : Out)
        else (keys K).foldl (keyStep K format eol t) ⟨speed, 0⟩).text = speed ++ r := by
  obtain ⟨r0, h0⟩ := foldl_extends (keyStep K format eol t)
    (fun o k => keyStep_extends K format eol t o k) (keys K) ⟨speed, 0⟩
  split
  · exact ⟨r0 ++ String.singleton eol, by
      simp only
      rw [push_eq_append, h0, String.append_assoc]⟩
  · exact ⟨r0, h0⟩

/-- The report of every record, in every format, begins with the speed line
`stty_print` writes first. -/
theorem stty_print_begins (K : Consts) (format : Nat) (t : termios) :
    ∃ rest : String, (stty_print K format (Except.ok t)).stdout =
      (if t.ispeed = t.ospeed then
        ("speed " ++ toString (speed_to_baud K t.ispeed) ++
          (if format = 'a'.toNat then " baud;" else " ")).push
          (if format = 'a'.toNat then '\n' else ' ')
      else
        ("ispeed " ++ toString (speed_to_baud K t.ispeed) ++
          (if format = 'a'.toNat then " baud;" else " ") ++ " ospeed " ++
          toString (speed_to_baud K t.ospeed) ++
          (if format = 'a'.toNat then " baud;" else " ")).push
          (if format = 'a'.toNat then '\n' else ' ')) ++ rest := by
  obtain ⟨rb, hrb⟩ : ∃ r : String, (beforeSettings K format t).text =
      (if t.ispeed = t.ospeed then
        ("speed " ++ toString (speed_to_baud K t.ispeed) ++
          (if format = 'a'.toNat then " baud;" else " ")).push
          (if format = 'a'.toNat then '\n' else ' ')
      else
        ("ispeed " ++ toString (speed_to_baud K t.ispeed) ++
          (if format = 'a'.toNat then " baud;" else " ") ++ " ospeed " ++
          toString (speed_to_baud K t.ospeed) ++
          (if format = 'a'.toNat then " baud;" else " ")).push
          (if format = 'a'.toNat then '\n' else ' ')) ++ r :=
    keys_extends K format _ t _
  obtain ⟨r1, h1⟩ := foldl_extends (settingStep (if format = 'a'.toNat then '\n' else ' ') t)
    (fun o s => settingStep_extends _ t o s) (settings K) (beforeSettings K format t)
  obtain ⟨r2, h2⟩ := foldl_extends (fieldStep (if format = 'a'.toNat then '\n' else ' ') t)
    (fun o f => fieldStep_extends _ t o f) (fields K)
    ((settings K).foldl (settingStep (if format = 'a'.toNat then '\n' else ' ') t)
      (beforeSettings K format t))
  rw [stty_print_ok]
  apply ite_extends
  · exact ⟨rb ++ r1 ++ r2 ++ String.singleton '\n', by
      rw [push_eq_append, h2, h1, hrb]
      simp only [String.append_assoc]⟩
  · exact ⟨rb ++ r1 ++ r2, by
      rw [h2, h1, hrb]
      simp only [String.append_assoc]⟩

/-- What `printkey` writes for a key, in every format: the name, the
separator of the format and the value, followed by `;` in the format `a`; or
nothing for a key that is not shown in the current mode. -/
theorem printkey_text (K : Consts) (k : Key) (canon format : Nat) (t : termios) :
    (printkey K k canon format t).1 =
      if k.mode = KeyMode.BOTH ∨ (canon ≠ 0 ∧ k.mode = KeyMode.CANONICAL) then
        k.string ++ (if format = 'a'.toNat then " = " else " ") ++
          cc_to_str K (t.c_cc k.n) (format = 'g'.toNat) ++
          (if format = 'a'.toNat then ";" else "")
      else if canon = 0 ∧ k.mode = KeyMode.NONCANONICAL then
        k.string ++ (if format = 'a'.toNat then " = " else " ") ++ toString (t.c_cc k.n) ++
          (if format = 'a'.toNat then ";" else "")
      else "" := by
  have hlen : ∀ v : String,
      (k.string ++ (if format = 'a'.toNat then " = " else " ") ++ v).length ≠ 0 := by
    intro v
    have h3 : " = ".length = 3 := rfl
    have h1 : " ".length = 1 := rfl
    simp only [String.length_append]
    split <;> omega
  simp only [printkey]
  by_cases hf : format = 'a'.toNat
  · by_cases h1 : k.mode = KeyMode.BOTH ∨ (canon ≠ 0 ∧ k.mode = KeyMode.CANONICAL)
    · rw [if_pos h1, if_pos h1, if_pos ⟨hlen _, hf⟩]
      simp only [if_pos hf]
    · rw [if_neg h1, if_neg h1]
      by_cases h2 : canon = 0 ∧ k.mode = KeyMode.NONCANONICAL
      · rw [if_pos h2, if_pos h2, if_pos ⟨hlen _, hf⟩]
        simp only [if_pos hf]
      · rw [if_neg h2, if_neg h2, if_neg (by simp)]
  · by_cases h1 : k.mode = KeyMode.BOTH ∨ (canon ≠ 0 ∧ k.mode = KeyMode.CANONICAL)
    · rw [if_pos h1, if_pos h1, if_neg (fun h => hf h.2)]
      simp only [if_neg hf]
      apply String.ext
      simp
    · rw [if_neg h1, if_neg h1]
      by_cases h2 : canon = 0 ∧ k.mode = KeyMode.NONCANONICAL
      · rw [if_pos h2, if_pos h2, if_neg (fun h => hf h.2)]
        simp only [if_neg hf]
        apply String.ext
        simp
      · rw [if_neg h2, if_neg h2, if_neg (fun h => hf h.2)]

/-- C14 amended: with zero operands and neither `-a` nor `-g`, `main` calls
`stty_print` with the format `a`, so the run is the same as with `-a`, in
either scanning mode of `getopt`.  For every record its report begins with
the speed line carrying ` baud;` after each rate, and for every key `printkey`
writes in that format the name, ` = `, the value and `;` (the value in the
notation of `cc_to_str` without quoting for a key shown in both modes or in
canonical mode, in decimal for `min` and `time`), or nothing for a key not
shown.  The other format is reached with `-g` only: there the speed line has
each rate followed by a space and no `baud;`, and a printed key is the name,
one space and the value, with no `;` written after it. -/
theorem main_no_flag_format (K : Consts) (ordering : ORDERING) (prog : String)
    (tty : Except String termios) :
    main K ordering [prog] tty = main K ordering [prog, "-a"] tty ∧
    main K ordering [prog] tty =
      ⟨(stty_print K 'a'.toNat tty).status, (stty_print K 'a'.toNat tty).stdout,
       (stty_print K 'a'.toNat tty).stderr, settings K, [TtyCall.tcgetattr]⟩ ∧
    main K ordering [prog, "-g"] tty =
      ⟨(stty_print K 'g'.toNat tty).status, (stty_print K 'g'.toNat tty).stdout,
       (stty_print K 'g'.toNat tty).stderr, settings K, [TtyCall.tcgetattr]⟩ ∧
    (∀ t : termios, ∃ rest : String,
      (main K ordering [prog] (Except.ok t)).stdout =
        (if t.ispeed = t.ospeed then
          "speed " ++ toString (speed_to_baud K t.ispeed) ++ " baud;" ++ "\n"
        else
          "ispeed " ++ toString (speed_to_baud K t.ispeed) ++ " baud;" ++ " ospeed " ++
            toString (speed_to_baud K t.ospeed) ++ " baud;" ++ "\n") ++ rest) ∧
    (∀ (k : Key) (canon : Nat) (t : termios),
      (printkey K k canon 'a'.toNat t).1 =
        if k.mode = KeyMode.BOTH ∨ (canon ≠ 0 ∧ k.mode = KeyMode.CANONICAL) then
          k.string ++ " = " ++ cc_to_str K (t.c_cc k.n) false ++ ";"
        else if canon = 0 ∧ k.mode = KeyMode.NONCANONICAL then
          k.string ++ " = " ++ toString (t.c_cc k.n) ++ ";"
        else "") ∧
    (∀ t : termios, ∃ rest : String,
      (main K ordering [prog, "-g"] (Except.ok t)).stdout =
        (if t.ispeed = t.ospeed then
          "speed " ++ toString (speed_to_baud K t.ispeed) ++ " " ++ " "
        else
          "ispeed " ++ toString (speed_to_baud K t.ispeed) ++ " " ++ " ospeed " ++
            toString (speed_to_baud K t.ospeed) ++ " " ++ " ") ++ rest) ∧
    (∀ (k : Key) (canon : Nat) (t : termios),
      (printkey K k canon 'g'.toNat t).1 =
        if k.mode = KeyMode.BOTH ∨ (canon ≠ 0 ∧ k.mode = KeyMode.CANONICAL) then
          k.string ++ " " ++ cc_to_str K (t.c_cc k.n) true
        else if canon = 0 ∧ k.mode = KeyMode.NONCANONICAL then
          k.string ++ " " ++ toString (t.c_cc k.n)
        else "") := by
  have hga : ¬ ('g'.toNat = 'a'.toNat) := by decide
  have hda : decide ('a'.toNat = 'g'.toNat) = false := by decide
  have hdg : decide ('g'.toNat = 'g'.toNat) = true := by decide
  have hnl : String.singleton '\n' = "\n" := rfl
  have hsp : String.singleton ' ' = " " := rfl
  have h0 : ∀ tty1 : Except String termios, main K ordering [prog] tty1 =
      ⟨(stty_print K 'a'.toNat tty1).status, (stty_print K 'a'.toNat tty1).stdout,
       (stty_print K 'a'.toNat tty1).stderr, settings K, [TtyCall.tcgetattr]⟩ := by
    intro tty1
    rw [main_prog K ordering prog "stty"]
    exact main_report K ordering ["stty"] tty1 'a'.toNat
      (by cases ordering <;> decide) (by cases ordering <;> decide)
  have ha : main K ordering [prog, "-a"] tty =
      ⟨(stty_print K 'a'.toNat tty).status, (stty_print K 'a'.toNat tty).stdout,
       (stty_print K 'a'.toNat tty).stderr, settings K, [TtyCall.tcgetattr]⟩ := by
    rw [main_prog K ordering prog "stty"]
    exact main_report K ordering ["stty", "-a"] tty 'a'.toNat
      (by cases ordering <;> decide) (by cases ordering <;> decide)
  have hg : ∀ tty1 : Except String termios, main K ordering [prog, "-g"] tty1 =
      ⟨(stty_print K 'g'.toNat tty1).status, (stty_print K 'g'.toNat tty1).stdout,
       (stty_print K 'g'.toNat tty1).stderr, settings K, [TtyCall.tcgetattr]⟩ := by
    intro tty1
    rw [main_prog K ordering prog "stty"]
    exact main_report K ordering ["stty", "-g"] tty1 'g'.toNat
      (by cases ordering <;> decide) (by cases ordering <;> decide)
  refine ⟨by rw [h0, ha], h0 tty, hg tty, fun t => ?_, fun k canon t => ?_, fun t => ?_,
    fun k canon t => ?_⟩
  · obtain ⟨rest, hr⟩ := stty_print_begins K 'a'.toNat t
    refine ⟨rest, ?_⟩
    rw [h0]
    show (stty_print K 'a'.toNat (Except.ok t)).stdout = _
    rw [hr]
    simp only [if_true, push_eq_append, hnl]
  · rw [printkey_text]
    simp only [if_true, hda]
  · obtain ⟨rest, hr⟩ := stty_print_begins K 'g'.toNat t
    refine ⟨rest, ?_⟩
    rw [hg]
    show (stty_print K 'g'.toNat (Except.ok t)).stdout = _
    rw [hr]
    simp only [hga, if_false, push_eq_append, hsp]
  · rw [printkey_text]
    simp only [hga, if_false, hdg]
    split
    · apply String.ext
      simp
    · split
      · apply String.ext
        simp
      · rfl

end Stty
